import Mathlib

/-!
Shallow embedding of src/pv_calculation.py, a collateral-monitoring tool that
builds a monthly discount-factor curve from US-treasury tenor quotes by linear
interpolation and values a decremented cashflow stream under three mortality
scenarios (best estimate, best = shocked-up decrement, worst = shocked-down
decrement).

Conventions of the embedding:
- pandas float64 arithmetic is modelled over the rationals; NaN cells are
  modelled as `none : Option ℚ` (any comparison against NaN is false, any
  arithmetic with NaN is NaN);
- the per-column vectorized operations of the source become per-element
  operations on Lean lists that mirror the dataframe columns;
- the discount-factor power `(1 + r/100) ** (-year)` uses real exponentiation;
- exceptions raised by numpy/scipy become `Except String` values carrying the
  library's message.
-/

namespace PVCalc

/-! ### Assumptions and inputs (source lines 156-159)

The source fixes its scenario parameters as module constants; the claims
quantify over them, so the derived quantities below take the annual decrement
rate and the shock as parameters and the constants are recorded separately. -/

def CF : ℚ := 100000

def annual_qx : ℚ := 3 / 100

def base_mortality_shock : ℚ := 1 / 2

/-- Source line 158: the monthly decrement rate is the annual rate over 12. -/
def monthly_qx (aqx : ℚ) : ℚ := aqx / 12

/-! ### Single-month survival probabilities (source lines 169-171) -/

/-- Source line 169: best-estimate single-month survival probability. -/
def Survivorship (aqx : ℚ) : ℚ := 1 - monthly_qx aqx

/-- Source line 170: best-scenario (more deaths) single-month survival
probability. -/
def Survivorship_Best (aqx shock : ℚ) : ℚ := 1 - monthly_qx aqx * (1 + shock)

/-- Source line 171: worst-scenario (fewer deaths) single-month survival
probability. -/
def Survivorship_Worst (aqx shock : ℚ) : ℚ := 1 - monthly_qx aqx / (1 + shock)

/-! ### Cumulative survivorship (source lines 173-175)

The source assigns a scalar survival probability to a column (broadcast over
all 360 rows) and takes the pandas running product `cumprod` down the column. -/

/-- Running product of a column, carrying the product accumulated so far. -/
def cumprodAux (acc : ℚ) : List ℚ → List ℚ
  | [] => []
  | a :: t => (acc * a) :: cumprodAux (acc * a) t

/-- pandas `Series.cumprod`: entry i of the result is the product of entries
0..i of the input. -/
def cumprod (l : List ℚ) : List ℚ := cumprodAux 1 l

/-- The broadcast column of identical single-month survival probabilities
(lines 169-171 assign a scalar to a column of H rows). -/
def survCol (p : ℚ) (H : ℕ) : List ℚ := List.replicate H p

/-- Source lines 173-175: cumulative survivorship column for a scenario whose
single-month survival probability is p, over an H-month horizon. -/
def Cumulative_Survivorship (p : ℚ) (H : ℕ) : List ℚ := cumprod (survCol p H)

/-! ### PVs (source lines 187-193) and totals (source line 206) -/

/-- Source lines 187-189: decremented cashflow column, `CF * cumulative
survivorship`. -/
def Decremented_CFs (cf p : ℚ) (H : ℕ) : List ℚ :=
  (Cumulative_Survivorship p H).map (fun s => cf * s)

/-- Source lines 191-193: present-value column, `VDF * decremented cashflow`.
The valuation-discount-factor column is real-valued (it comes from a real
power); the rational cashflow column is coerced. -/
noncomputable def PVcol (vdf : List ℝ) (cf p : ℚ) (H : ℕ) : List ℝ :=
  List.zipWith (fun (v : ℝ) (d : ℚ) => v * (d : ℝ)) vdf (Decremented_CFs cf p H)

/-- Source line 206: a scenario's total PV is the sum of its PV column. -/
noncomputable def totalPV (vdf : List ℝ) (cf p : ℚ) (H : ℕ) : ℝ :=
  (PVcol vdf cf p H).sum

/-- The three per-scenario PV columns and their totals (sections 5 and 6 of
the source). -/
structure ValOutput where
  pv : List ℝ
  pvBest : List ℝ
  pvWorst : List ℝ
  total : ℝ
  totalBest : ℝ
  totalWorst : ℝ

/-- Sections 4-6 of the source as one function of the inputs listed by the
spec contract: the discount-factor column, the nominal cashflow, the annual
decrement rate, the shock, and the horizon.  The source performs no input
validation anywhere in this computation: every parameter combination flows
straight into the arithmetic. -/
noncomputable def valuate (vdf : List ℝ) (cf aqx shock : ℚ) (H : ℕ) : ValOutput :=
  { pv := PVcol vdf cf (Survivorship aqx) H
    pvBest := PVcol vdf cf (Survivorship_Best aqx shock) H
    pvWorst := PVcol vdf cf (Survivorship_Worst aqx shock) H
    total := totalPV vdf cf (Survivorship aqx) H
    totalBest := totalPV vdf cf (Survivorship_Best aqx shock) H
    totalWorst := totalPV vdf cf (Survivorship_Worst aqx shock) H }

/-! ### Valuation discount factor, scalar form (source line 148) -/

/-- Source line 148: one entry of the VDF column,
`(1 + Rate_Interpolated / 100) ** (-Year)`. -/
noncomputable def VDFval (rate : ℚ) (year : ℚ) : ℝ :=
  (1 + (rate : ℝ) / 100) ^ (-(year : ℝ))

/-! ### Basic lemmas about cumprod -/

theorem cumprodAux_length (acc : ℚ) (l : List ℚ) :
    (cumprodAux acc l).length = l.length := by
  induction l generalizing acc with
  | nil => rfl
  | cons a t ih => simp [cumprodAux, ih]

theorem cumprod_length (l : List ℚ) : (cumprod l).length = l.length :=
  cumprodAux_length 1 l

theorem cumprodAux_replicate_getD (p acc : ℚ) :
    ∀ (H i : ℕ), i < H →
      (cumprodAux acc (List.replicate H p)).getD i 0 = acc * p ^ (i + 1) := by
  intro H
  induction H generalizing acc with
  | zero => intro i hi; omega
  | succ n ih =>
    intro i hi
    rw [List.replicate_succ]
    cases i with
    | zero => simp [cumprodAux]
    | succ j =>
      have hj : j < n := by omega
      simp only [cumprodAux, List.getD_cons_succ]
      rw [ih (acc * p) j hj]
      ring

theorem Cumulative_Survivorship_getD (p : ℚ) (H i : ℕ) (hi : i < H) :
    (Cumulative_Survivorship p H).getD i 0 = p ^ (i + 1) := by
  have := cumprodAux_replicate_getD p 1 H i hi
  simpa [Cumulative_Survivorship, cumprod, survCol] using this

/-! ### Claim C2 -/

/-- C2: for a single-month survival probability p with 0 < p < 1, the
cumulative survivorship column satisfies S(m) = p^m (equivalently the
recurrence S(m) = S(m-1) * p with S(0) = 1), is non-increasing in the month,
and lies in (0, 1].  Entries are addressed by month m via list index m-1. -/
theorem C2_cumulative_survivorship (p : ℚ) (H : ℕ) (hp0 : 0 < p) (hp1 : p < 1)
    (m : ℕ) (hm1 : 1 ≤ m) (hmH : m ≤ H) :
    (Cumulative_Survivorship p H).getD (m - 1) 0 = p ^ m ∧
    (2 ≤ m →
      (Cumulative_Survivorship p H).getD (m - 1) 0 =
        (Cumulative_Survivorship p H).getD (m - 2) 0 * p) ∧
    (m + 1 ≤ H →
      (Cumulative_Survivorship p H).getD m 0 ≤
        (Cumulative_Survivorship p H).getD (m - 1) 0) ∧
    0 < (Cumulative_Survivorship p H).getD (m - 1) 0 ∧
    (Cumulative_Survivorship p H).getD (m - 1) 0 ≤ 1 := by
  have hidx : m - 1 < H := by omega
  have hS : (Cumulative_Survivorship p H).getD (m - 1) 0 = p ^ m := by
    rw [Cumulative_Survivorship_getD p H (m - 1) hidx]
    congr 1
    omega
  refine ⟨hS, ?_, ?_, ?_, ?_⟩
  · intro hm2
    have hidx2 : m - 2 < H := by omega
    rw [hS, Cumulative_Survivorship_getD p H (m - 2) hidx2]
    conv_lhs => rw [show m = (m - 2 + 1) + 1 by omega]
    rw [pow_succ]
  · intro hnext
    have hidxm : m < H := by omega
    rw [hS, Cumulative_Survivorship_getD p H m hidxm]
    calc p ^ (m + 1) = p ^ m * p := by ring
    _ ≤ p ^ m * 1 := by
        apply mul_le_mul_of_nonneg_left (le_of_lt hp1)
        positivity
    _ = p ^ m := by ring
  · rw [hS]; positivity
  · rw [hS]
    exact pow_le_one₀ (le_of_lt hp0) (le_of_lt hp1)

/-- Witness for C2 at p = 1/2, H = 3, m = 2. -/
theorem C2_witness :
    (Cumulative_Survivorship (1/2) 3).getD 1 0 = (1/2 : ℚ) ^ 2 ∧
    0 < (Cumulative_Survivorship (1/2) 3).getD 1 0 := by
  have h := C2_cumulative_survivorship (1/2) 3 (by norm_num) (by norm_num) 2
    (by norm_num) (by norm_num)
  exact ⟨h.1, h.2.2.2.1⟩

/-! ### Claim C7 -/

/-- C7: monotone shock ordering.  For shock > 0 and 0 < monthly_qx * (1 +
shock) < 1, at every month m in 1..H the best-scenario cumulative survivorship
is at most the best-estimate one, which is at most the worst-scenario one. -/
theorem C7_shock_ordering (aqx shock : ℚ) (H m : ℕ) (hs : 0 < shock)
    (h0 : 0 < monthly_qx aqx * (1 + shock))
    (h1 : monthly_qx aqx * (1 + shock) < 1)
    (hm1 : 1 ≤ m) (hmH : m ≤ H) :
    (Cumulative_Survivorship (Survivorship_Best aqx shock) H).getD (m - 1) 0 ≤
      (Cumulative_Survivorship (Survivorship aqx) H).getD (m - 1) 0 ∧
    (Cumulative_Survivorship (Survivorship aqx) H).getD (m - 1) 0 ≤
      (Cumulative_Survivorship (Survivorship_Worst aqx shock) H).getD (m - 1) 0 := by
  have hidx : m - 1 < H := by omega
  have hq : 0 < monthly_qx aqx := by
    have hs1 : (0 : ℚ) < 1 + shock := by linarith
    nlinarith
  have hs1 : (0 : ℚ) < 1 + shock := by linarith
  have hBest0 : 0 ≤ Survivorship_Best aqx shock := by
    unfold Survivorship_Best; linarith
  have hBestBE : Survivorship_Best aqx shock ≤ Survivorship aqx := by
    unfold Survivorship_Best Survivorship
    nlinarith
  have hBE0 : 0 ≤ Survivorship aqx := le_trans hBest0 hBestBE
  have hBEWorst : Survivorship aqx ≤ Survivorship_Worst aqx shock := by
    unfold Survivorship Survivorship_Worst
    have : monthly_qx aqx / (1 + shock) ≤ monthly_qx aqx :=
      div_le_self (le_of_lt hq) (by linarith)
    linarith
  rw [Cumulative_Survivorship_getD _ H (m - 1) hidx,
    Cumulative_Survivorship_getD _ H (m - 1) hidx,
    Cumulative_Survivorship_getD _ H (m - 1) hidx]
  exact ⟨pow_le_pow_left₀ hBest0 hBestBE (m - 1 + 1),
    pow_le_pow_left₀ hBE0 hBEWorst (m - 1 + 1)⟩

/-- Witness for C7 at the source's own assumptions (annual_qx = 0.03, shock =
0.5), H = 2, m = 1. -/
theorem C7_witness :
    (Cumulative_Survivorship (Survivorship_Best annual_qx base_mortality_shock) 2).getD 0 0 ≤
      (Cumulative_Survivorship (Survivorship annual_qx) 2).getD 0 0 ∧
    (Cumulative_Survivorship (Survivorship annual_qx) 2).getD 0 0 ≤
      (Cumulative_Survivorship (Survivorship_Worst annual_qx base_mortality_shock) 2).getD 0 0 := by
  have h := C7_shock_ordering annual_qx base_mortality_shock 2 1
    (by norm_num [base_mortality_shock])
    (by norm_num [monthly_qx, annual_qx, base_mortality_shock])
    (by norm_num [monthly_qx, annual_qx, base_mortality_shock])
    (by norm_num) (by norm_num)
  simpa using h

/-! ### Claim C8 -/

/-- C8: scenario collapse.  With shock_percent = 0 the three per-scenario
total present values are exactly equal, for every discount-factor column,
cashflow, decrement rate, and horizon. -/
theorem C8_scenario_collapse (vdf : List ℝ) (cf aqx : ℚ) (H : ℕ) :
    (valuate vdf cf aqx 0 H).totalBest = (valuate vdf cf aqx 0 H).total ∧
    (valuate vdf cf aqx 0 H).totalWorst = (valuate vdf cf aqx 0 H).total := by
  have hBest : Survivorship_Best aqx 0 = Survivorship aqx := by
    unfold Survivorship_Best Survivorship; ring
  have hWorst : Survivorship_Worst aqx 0 = Survivorship aqx := by
    unfold Survivorship_Worst Survivorship
    norm_num
  constructor
  · simp only [valuate, hBest]
  · simp only [valuate, hWorst]

/-! ### Claim C10 -/

theorem zipWith_sum_mono (cf : ℚ) (hcf : 0 ≤ cf) :
    ∀ (vdf : List ℝ) (h : ℕ) (p q a b : ℚ),
      (∀ v ∈ vdf, 0 ≤ v) → 0 ≤ a → a ≤ b → 0 ≤ p → p ≤ q →
      (List.zipWith (fun (v : ℝ) (d : ℚ) => v * (d : ℝ)) vdf
          ((cumprodAux a (List.replicate h p)).map (fun s => cf * s))).sum ≤
      (List.zipWith (fun (v : ℝ) (d : ℚ) => v * (d : ℝ)) vdf
          ((cumprodAux b (List.replicate h q)).map (fun s => cf * s))).sum := by
  intro vdf
  induction vdf with
  | nil => intro h p q a b _ _ _ _ _; simp
  | cons v vs ih =>
    intro h p q a b hv ha hab hp hpq
    cases h with
    | zero => simp [cumprodAux]
    | succ n =>
      rw [List.replicate_succ, List.replicate_succ]
      simp only [cumprodAux, List.map_cons, List.zipWith_cons_cons, List.sum_cons]
      have hv0 : (0 : ℝ) ≤ v := hv v (List.mem_cons_self v vs)
      have hvs : ∀ x ∈ vs, (0 : ℝ) ≤ x := fun x hx => hv x (List.mem_cons_of_mem v hx)
      have hap : 0 ≤ a * p := mul_nonneg ha hp
      have habq : a * p ≤ b * q := mul_le_mul hab hpq hp (le_trans ha hab)
      have hhead : v * ((cf * (a * p) : ℚ) : ℝ) ≤ v * ((cf * (b * q) : ℚ) : ℝ) := by
        apply mul_le_mul_of_nonneg_left _ hv0
        exact_mod_cast mul_le_mul_of_nonneg_left habq hcf
      have htail := ih n p q (a * p) (b * q) hvs hap habq hp hpq
      linarith

/-- C10 (implicit): if every discount factor is positive and the three
single-month survival probabilities are ordered 0 < pBest ≤ pBE ≤ pWorst ≤ 1,
then the three total PVs computed with the source's cashflow are ordered the
same way: best-scenario total ≤ best-estimate total ≤ worst-scenario total. -/
theorem C10_total_pv_ordering (vdf : List ℝ) (H : ℕ) (pF pB pA : ℚ)
    (hv : ∀ v ∈ vdf, 0 < v)
    (h0 : 0 < pF) (hFB : pF ≤ pB) (hBA : pB ≤ pA) (hA1 : pA ≤ 1) :
    totalPV vdf CF pF H ≤ totalPV vdf CF pB H ∧
    totalPV vdf CF pB H ≤ totalPV vdf CF pA H := by
  have hv' : ∀ v ∈ vdf, (0 : ℝ) ≤ v := fun v h => le_of_lt (hv v h)
  have hcf : (0 : ℚ) ≤ CF := by norm_num [CF]
  constructor
  · exact zipWith_sum_mono CF hcf vdf H pF pB 1 1 hv' (by norm_num) (le_refl 1)
      (le_of_lt h0) hFB
  · exact zipWith_sum_mono CF hcf vdf H pB pA 1 1 hv' (by norm_num) (le_refl 1)
      (le_trans (le_of_lt h0) hFB) hBA

/-- Witness for C10 at vdf = [1], pBest = 1/4, pBE = 1/2, pWorst = 1, H = 1. -/
theorem C10_witness :
    totalPV [(1 : ℝ)] CF (1/4) 1 ≤ totalPV [(1 : ℝ)] CF (1/2) 1 ∧
    totalPV [(1 : ℝ)] CF (1/2) 1 ≤ totalPV [(1 : ℝ)] CF 1 1 := by
  exact C10_total_pv_ordering [(1 : ℝ)] 1 (1/4) (1/2) 1
    (by intro v hv; simp at hv; simp [hv])
    (by norm_num) (by norm_num) (by norm_num) (by norm_num)

/-! ### Claim C5 -/

/-- C5 counterexample: the source contains no ScenarioParameterError and no
parameter validation.  With annual_qx = 9 and the source's shock of 0.5 the
best-scenario single-month survival probability is -(1/8) < 0, and the
valuator still computes a (negative) present-value row from it rather than
rejecting the input. -/
theorem C5_counterexample :
    Survivorship_Best 9 (1/2) = -(1/8) ∧
    (valuate [(1 : ℝ)] CF 9 (1/2) 1).pvBest = [(-12500 : ℝ)] := by
  constructor
  · norm_num [Survivorship_Best, monthly_qx]
  · show PVcol [(1 : ℝ)] CF (Survivorship_Best 9 (1/2)) 1 = [(-12500 : ℝ)]
    have hS : Survivorship_Best 9 (1/2) = -(1/8) := by
      norm_num [Survivorship_Best, monthly_qx]
    rw [hS]
    simp only [PVcol, Decremented_CFs, Cumulative_Survivorship, survCol, cumprod,
      List.replicate, cumprodAux, List.map_cons, List.map_nil,
      List.zipWith_cons_cons, List.zipWith_nil_right]
    norm_num [CF]

/-- C5 amended: the valuator performs no domain validation at all (no
ScenarioParameterError exists in the source).  Even when monthly_qx * (1 +
shock_percent) > 1 — which makes the best-scenario single-month survival
probability negative — the output rows are computed silently from that
negative probability, one PV entry per month up to the length of the
discount-factor column. -/
theorem C5_amended_no_validation (vdf : List ℝ) (cf aqx shock : ℚ) (H : ℕ)
    (hbad : 1 < monthly_qx aqx * (1 + shock)) :
    Survivorship_Best aqx shock < 0 ∧
    (valuate vdf cf aqx shock H).pvBest =
      PVcol vdf cf (Survivorship_Best aqx shock) H ∧
    (valuate vdf cf aqx shock H).pvBest.length = min vdf.length H := by
  refine ⟨?_, rfl, ?_⟩
  · unfold Survivorship_Best; linarith
  · show (PVcol vdf cf (Survivorship_Best aqx shock) H).length = min vdf.length H
    simp [PVcol, Decremented_CFs, Cumulative_Survivorship, cumprod, survCol,
      cumprodAux_length]

/-- Witness for the amended C5 at annual_qx = 9, shock = 1/2 (monthly_qx *
(1 + shock) = 9/8 > 1). -/
theorem C5_amended_witness :
    Survivorship_Best 9 (1/2) < 0 ∧
    (valuate [(1 : ℝ)] CF 9 (1/2) 1).pvBest =
      PVcol [(1 : ℝ)] CF (Survivorship_Best 9 (1/2)) 1 := by
  have h := C5_amended_no_validation [(1 : ℝ)] CF 9 (1/2) 1
    (by norm_num [monthly_qx])
  exact ⟨h.1, h.2.1⟩

/-! ## Curve builder (sections 2-3 of the source)

Tenor labels are modelled as lists of characters; the pandas string slices
`.str[:1]`, `.str[:2]` and `.str[-2:]` become list take/drop.  pandas float
cells are Option ℚ with none for NaN. -/

/-- Numeric value of a decimal digit character. -/
def digitVal (c : Char) : ℕ := c.toNat - '0'.toNat

/-- Decimal digit-run parse, folding digits left to right; a non-digit
character fails the parse, as Python int() raises ValueError there. -/
def parseDigitsAux (acc : ℕ) : List Char → Option ℕ
  | [] => some acc
  | c :: rest => if c.isDigit then parseDigitsAux (acc * 10 + digitVal c) rest else none

/-- Digit-run parse of a nonempty character sequence. -/
def parseDigits (l : List Char) : Option ℕ :=
  match l with
  | [] => none
  | _ :: _ => parseDigitsAux 0 l

/-- Leading and trailing whitespace removal, as Python int() applies to its
argument before parsing. -/
def stripSpaces (l : List Char) : List Char :=
  ((l.dropWhile Char.isWhitespace).reverse.dropWhile Char.isWhitespace).reverse

/-- Python int() on a string: surrounding whitespace, an optional sign, then
decimal digits; anything else fails. -/
def pyInt (l : List Char) : Option ℤ :=
  match stripSpaces l with
  | [] => none
  | c :: rest =>
    if c = '-' then (parseDigits rest).map (fun n => -(n : ℤ))
    else if c = '+' then (parseDigits rest).map (fun n => (n : ℤ))
    else (parseDigits (c :: rest)).map (fun n => (n : ℤ))

/-- Source lines 97-101: the Maturities column.
np.where(Tenors.str[-2:] == 'Mo', Tenors.str[:1].astype(int) / 12,
Tenors.str[:2].astype(int)).  Note the slices: a month-tenor label
contributes only its FIRST character, any other label only its first TWO
characters. -/
def Maturities (t : List Char) : Option ℚ :=
  if t.drop (t.length - 2) = ['M', 'o'] then
    (pyInt (t.take 1)).map (fun n => (n : ℚ) / 12)
  else
    (pyInt (t.take 2)).map (fun n => (n : ℚ))

/-- The exceptions the numpy/scipy calls in sections 2-3 can raise.  The
source defines no exception type of its own (in particular no CurveDataError
and no ScenarioParameterError); these are the library errors, identified by
their messages. -/
inductive CurveErr where
  /-- pandas astype(int): invalid literal for int() with base 10. -/
  | intCastFail
  /-- scipy interp1d: x and y arrays must be equal in length. -/
  | unequalLengths
  /-- scipy interp1d: x and y arrays must have at least 2 entries. -/
  | tooFewEntries
  /-- scipy interp1d bounds check: a value in x_new is below the
  interpolation range. -/
  | belowRange
  /-- scipy interp1d bounds check: a value in x_new is above the
  interpolation range. -/
  | aboveRange
  deriving DecidableEq

/-- One row of treasury_curve_final after section 3: a rate (NaN when the
source cell is empty) and the maturity in years computed from the tenor. -/
structure CurveRow where
  rate : Option ℚ
  maturity : ℚ
  deriving DecidableEq

/-- Lines 97-101 applied to every (tenor, rate) input row: computing the
Maturities column raises if a tenor's sliced prefix is not an int literal. -/
def parseTable (points : List (List Char × Option ℚ)) :
    Except CurveErr (List CurveRow) :=
  points.mapM (fun p =>
    match Maturities p.1 with
    | some m => Except.ok { rate := p.2, maturity := m }
    | none => Except.error CurveErr.intCastFail)

/-- One row of df_final after the line-114 merge: month, year fraction, and
the (possibly NaN) matched curve columns. -/
structure MergedRow where
  month : ℕ
  year : ℚ
  maturity : Option ℚ
  rate : Option ℚ
  deriving DecidableEq

/-- pandas left merge of one month row against the curve table on
Year == Maturities: one output row per matching curve row, or a single row
with NaN curve columns when nothing matches.  how='left' keeps the months in
order. -/
def mergeMonth (tbl : List CurveRow) (m : ℕ) : List MergedRow :=
  let ms := tbl.filter (fun r => decide (r.maturity = (m : ℚ) / 12))
  if ms.isEmpty then [{ month := m, year := (m : ℚ) / 12, maturity := none, rate := none }]
  else ms.map (fun r => { month := m, year := (m : ℚ) / 12, maturity := some r.maturity, rate := r.rate })

/-- Source lines 110-111: the Months column is range(1, H+1) and Year is
Months/12; line 114 merges every month against the curve table. -/
def mergeAll (tbl : List CurveRow) (H : ℕ) : List MergedRow :=
  (List.range' 1 H).flatMap (mergeMonth tbl)

/-- pandas fillna(method='ffill') over the merged frame: each NaN cell of the
Maturities and Rate columns takes the previous row's already-filled value in
its column; leading NaNs stay NaN.  pm and pr carry those previous values. -/
def ffillRows (pm pr : Option ℚ) : List MergedRow → List MergedRow
  | [] => []
  | r :: rest =>
    let m := match r.maturity with | some v => some v | none => pm
    let ra := match r.rate with | some v => some v | none => pr
    { month := r.month, year := r.year, maturity := m, rate := ra } :: ffillRows m ra rest

/-- df_final after source line 114: merged and forward-filled. -/
def df_final_merged (tbl : List CurveRow) (H : ℕ) : List MergedRow :=
  ffillRows none none (mergeAll tbl H)

/-! ### Float arithmetic and comparisons with NaN (Option ℚ, none = NaN) -/

/-- NaN-propagating addition. -/
def addN : Option ℚ → Option ℚ → Option ℚ
  | some a, some b => some (a + b)
  | _, _ => none

/-- NaN-propagating subtraction. -/
def subN : Option ℚ → Option ℚ → Option ℚ
  | some a, some b => some (a - b)
  | _, _ => none

/-- NaN-propagating multiplication. -/
def mulN : Option ℚ → Option ℚ → Option ℚ
  | some a, some b => some (a * b)
  | _, _ => none

/-- NaN-propagating division.  A zero denominator gives float inf or nan; on
every path of the interpolation below a zero-denominator slope arises only
between duplicated abscissae, where the query coincides with them and the
slope is then multiplied by zero (nan), so none is the faithful collapsed
value. -/
def divN : Option ℚ → Option ℚ → Option ℚ
  | some a, some b => if b = 0 then none else some (a / b)
  | _, _ => none

/-- Float strict less-than: any comparison against NaN is false. -/
def ltN : Option ℚ → Option ℚ → Bool
  | some a, some b => decide (a < b)
  | _, _ => false

/-- Float less-or-equal: any comparison against NaN is false. -/
def leN : Option ℚ → Option ℚ → Bool
  | some a, some b => decide (a ≤ b)
  | _, _ => false

/-! ### scipy.interpolate.interp1d (source lines 134-135)

With the default kind='linear' on one-dimensional float64 data, interp1d
dispatches to numpy.interp for evaluation; construction sorts the abscissae
(assume_sorted defaults to false, NaN sorting last) and evaluation checks the
query vector against the data range (bounds_error defaults to true), so an
out-of-range query raises rather than extrapolates.  numpy argsort's default
quicksort is not stable; among equal maturities the order is unspecified, and
a stable insertion sort is used here (indistinguishable wherever rates agree
on duplicated maturities, which is every case the ffilled frame produces). -/

/-- Sort key on abscissae: NaN compares greater than everything. -/
def xleB : Option ℚ → Option ℚ → Bool
  | some a, some b => decide (a ≤ b)
  | none, some _ => false
  | _, none => true

/-- Sort of the (maturity, rate) pairs by maturity. -/
def sortPairs (l : List (Option ℚ × Option ℚ)) : List (Option ℚ × Option ℚ) :=
  l.insertionSort (fun a b => xleB a.1 b.1 = true)

/-- The constructed interpolator: sorted abscissae with their ordinates. -/
structure Interp1d where
  xs : List (Option ℚ)
  ys : List (Option ℚ)
  deriving DecidableEq

/-- interp1d construction (source line 134). -/
def interp1d (x y : List (Option ℚ)) : Except CurveErr Interp1d :=
  if x.length ≠ y.length then Except.error CurveErr.unequalLengths
  else if x.length < 2 then Except.error CurveErr.tooFewEntries
  else
    let ps := sortPairs (x.zip y)
    Except.ok { xs := ps.map Prod.fst, ys := ps.map Prod.snd }

/-- Index of the largest abscissa less than or equal to the query, as numpy's
binary search finds it on the sorted array (NaNs at the end behave as plus
infinity); none when the query is below the first abscissa. -/
def largestLE (x : List (Option ℚ)) (q : ℚ) : Option ℕ :=
  let cnt := (x.takeWhile (fun v => leN v (some q))).length
  if cnt = 0 then none else some (cnt - 1)

/-- One query of numpy.interp on the sorted data: left fill below the data,
the last ordinate at or above the last abscissa, the matched ordinate on an
exact abscissa hit, otherwise the linear slope formula anchored at the left
endpoint, with numpy's NaN fallback (re-anchor the formula at the right
endpoint, then fall back to the common ordinate value when the two ordinates
are equal). -/
def npInterp (x y : List (Option ℚ)) (q : ℚ) : Option ℚ :=
  match largestLE x q with
  | none => y.getD 0 none
  | some j =>
    if j = x.length - 1 then y.getD j none
    else if x.getD j none = some q then y.getD j none
    else
      let xj := x.getD j none
      let xj1 := x.getD (j + 1) none
      let yj := y.getD j none
      let yj1 := y.getD (j + 1) none
      let slope := divN (subN yj1 yj) (subN xj1 xj)
      match addN (mulN slope (subN (some q) xj)) yj with
      | some v => some v
      | none =>
        match addN (mulN slope (subN (some q) xj1)) yj1 with
        | some v => some v
        | none =>
          match yj, yj1 with
          | some a, some b => if a = b then some a else none
          | _, _ => none

/-- scipy bounds check: query strictly below the first abscissa. -/
def belowBounds (x : List (Option ℚ)) (q : ℚ) : Bool :=
  ltN (some q) (x.getD 0 none)

/-- scipy bounds check: query strictly above the last abscissa. -/
def aboveBounds (x : List (Option ℚ)) (q : ℚ) : Bool :=
  ltN (x.getD (x.length - 1) none) (some q)

/-- Vector evaluation of the interpolator (source line 135): with
bounds_error left at its default, any out-of-range query raises ValueError,
below-range reported first; otherwise every month's query is interpolated. -/
def interpCall (f : Interp1d) (qs : List ℚ) : Except CurveErr (List (Option ℚ)) :=
  if qs.any (belowBounds f.xs) then Except.error CurveErr.belowRange
  else if qs.any (aboveBounds f.xs) then Except.error CurveErr.aboveRange
  else Except.ok (qs.map (npInterp f.xs f.ys))

/-- One row of df_final after line 146 drops the merge columns: month, year
fraction, and the interpolated rate. -/
structure MonthRow where
  month : ℕ
  year : ℚ
  rateInterp : Option ℚ
  deriving DecidableEq

/-- Sections 2-3 of the source after the tenor normalization: merge the
monthly projection against the curve table and forward-fill, build the
interpolator over the filled Maturities and Rate columns, and evaluate it at
every month's year fraction. -/
def buildCurveFromTable (tbl : List CurveRow) (H : ℕ) :
    Except CurveErr (List MonthRow) :=
  match interp1d ((df_final_merged tbl H).map (fun r => r.maturity))
      ((df_final_merged tbl H).map (fun r => r.rate)) with
  | Except.error e => Except.error e
  | Except.ok f =>
    match interpCall f ((df_final_merged tbl H).map (fun r => r.year)) with
    | Except.error e => Except.error e
    | Except.ok rates =>
      Except.ok (List.zipWith (fun (r : MergedRow) ri =>
        { month := r.month, year := r.year, rateInterp := ri }) (df_final_merged tbl H) rates)

/-- Sections 2-3 of the source end to end: normalize tenors to maturities,
then build and evaluate the monthly curve. -/
def buildCurve (points : List (List Char × Option ℚ)) (H : ℕ) :
    Except CurveErr (List MonthRow) :=
  match parseTable points with
  | Except.error e => Except.error e
  | Except.ok tbl => buildCurveFromTable tbl H

/-! ### Knot view of a curve table

Every treasury tenor sits on an exact month multiple (n Mo at month n, n Yr
at month 12n), which is what makes the line-114 merge on Year == Maturities
match it.  A curve table is therefore a list of knots (month index, rate). -/

/-- The curve table whose maturities sit at the given knot months. -/
def tblOfKnots (ks : List (ℕ × ℚ)) : List CurveRow :=
  ks.map (fun p => { rate := some p.2, maturity := (p.1 : ℚ) / 12 })

/-- The knot at or before month m that comes last in table order (for a
table sorted by maturity: the greatest knot month at or below m). -/
def lastKnotLE : List (ℕ × ℚ) → ℕ → Option (ℕ × ℚ)
  | [], _ => none
  | p :: rest, m =>
    match lastKnotLE rest m with
    | some q => some q
    | none => if p.1 ≤ m then some p else none

/-- The knot at or after month m that comes first in table order (for a
table sorted by maturity: the least knot month at or above m). -/
def firstKnotGE : List (ℕ × ℚ) → ℕ → Option (ℕ × ℚ)
  | [], _ => none
  | p :: rest, m => if m ≤ p.1 then some p else firstKnotGE rest m

/-- Piecewise-linear interpolation of the knots at month m, written from the
spec's words: exact at a knot, otherwise the chord between the bracketing
knots, and undefined outside them. -/
def specInterp (ks : List (ℕ × ℚ)) (m : ℕ) : Option ℚ :=
  match lastKnotLE ks m, firstKnotGE ks m with
  | some (np, rp), some (nk, rk) =>
    if np = nk then some rp
    else some (rp + (rk - rp) * ((m : ℚ) - (np : ℚ)) / ((nk : ℚ) - (np : ℚ)))
  | _, _ => none

/-- The merged, forward-filled row that month m receives from a knot table:
the columns of the last knot at or before m, NaN before the first knot. -/
def mrowSpec (ks : List (ℕ × ℚ)) (m : ℕ) : MergedRow :=
  match lastKnotLE ks m with
  | some q =>
    { month := m, year := (m : ℚ) / 12, maturity := some ((q.1 : ℚ) / 12),
      rate := some q.2 }
  | none => { month := m, year := (m : ℚ) / 12, maturity := none, rate := none }

/-- Source line 148 applied to a month row: the valuation discount factor.  A
NaN interpolated rate gives a NaN discount factor. -/
noncomputable def VDF (r : MonthRow) : Option ℝ :=
  r.rateInterp.map (fun ri => VDFval ri r.year)

/-! ### Digit-character facts used for the tenor-normalization claims -/

theorem isDigit_ne_dash {c : Char} (h : c.isDigit = true) : ¬(c = '-') := by
  intro hc; subst hc; exact absurd h (by decide)

theorem isDigit_ne_plus {c : Char} (h : c.isDigit = true) : ¬(c = '+') := by
  intro hc; subst hc; exact absurd h (by decide)

theorem isDigit_not_ws {c : Char} (h : c.isDigit = true) : c.isWhitespace = false := by
  cases hw : c.isWhitespace
  · rfl
  · exfalso
    have hc : ((c = ' ' ∨ c = '\t') ∨ c = '\r') ∨ c = '\n' := by
      simpa [Char.isWhitespace, Bool.or_eq_true, decide_eq_true_eq] using hw
    rcases hc with ((rfl | rfl) | rfl) | rfl <;> exact absurd h (by decide)

theorem pyInt_single_digit {c : Char} (h : c.isDigit = true) :
    pyInt [c] = some ((digitVal c : ℕ) : ℤ) := by
  have hstrip : stripSpaces [c] = [c] := by
    simp [stripSpaces, List.dropWhile, isDigit_not_ws h]
  simp [pyInt, hstrip, isDigit_ne_dash h, isDigit_ne_plus h, parseDigits,
    parseDigitsAux, h]

theorem pyInt_two_digits {c₁ c₂ : Char} (h₁ : c₁.isDigit = true)
    (h₂ : c₂.isDigit = true) :
    pyInt [c₁, c₂] = some ((digitVal c₁ * 10 + digitVal c₂ : ℕ) : ℤ) := by
  have hstrip : stripSpaces [c₁, c₂] = [c₁, c₂] := by
    simp [stripSpaces, List.dropWhile, isDigit_not_ws h₁, isDigit_not_ws h₂]
  simp [pyInt, hstrip, isDigit_ne_dash h₁, isDigit_ne_plus h₁, parseDigits,
    parseDigitsAux, h₁, h₂]

theorem pyInt_digit_space {c : Char} (h : c.isDigit = true) :
    pyInt [c, ' '] = some ((digitVal c : ℕ) : ℤ) := by
  have hstrip : stripSpaces [c, ' '] = [c] := by
    simp [stripSpaces, List.dropWhile, isDigit_not_ws h]
  simp [pyInt, hstrip, isDigit_ne_dash h, isDigit_ne_plus h, parseDigits,
    parseDigitsAux, h]

/-! ### Maturity-normalization helper lemmas, shared by several claims -/

theorem Maturities_Mo_one (c : Char) (h : c.isDigit = true) :
    Maturities [c, ' ', 'M', 'o'] = some ((digitVal c : ℚ) / 12) := by
  have htake : [c, ' ', 'M', 'o'].take 1 = [c] := by simp
  simp [Maturities, htake, pyInt_single_digit h]

theorem Maturities_Mo_two (c₁ c₂ : Char) (h₁ : c₁.isDigit = true) :
    Maturities [c₁, c₂, ' ', 'M', 'o'] = some ((digitVal c₁ : ℚ) / 12) := by
  have htake : [c₁, c₂, ' ', 'M', 'o'].take 1 = [c₁] := by simp
  simp [Maturities, htake, pyInt_single_digit h₁]

theorem Maturities_Yr_one (c : Char) (h : c.isDigit = true) :
    Maturities [c, ' ', 'Y', 'r'] = some ((digitVal c : ℕ) : ℚ) := by
  have htake : [c, ' ', 'Y', 'r'].take 2 = [c, ' '] := by simp
  simp [Maturities, htake, pyInt_digit_space h]

theorem Maturities_Yr_two (c₁ c₂ : Char) (h₁ : c₁.isDigit = true)
    (h₂ : c₂.isDigit = true) :
    Maturities [c₁, c₂, ' ', 'Y', 'r'] = some ((digitVal c₁ * 10 + digitVal c₂ : ℕ) : ℚ) := by
  have htake : [c₁, c₂, ' ', 'Y', 'r'].take 2 = [c₁, c₂] := by simp
  simp [Maturities, htake, pyInt_two_digits h₁ h₂]

/-! ### Claim C4 -/

/-- C4 counterexample: the hypothetical label given by the claim, a
two-digit month tenor, does NOT normalize to its whole leading numeric
portion over 12.  The source slices only the first character, so the label
one-zero-space-Mo yields 1/12, not 10/12. -/
theorem C4_counterexample :
    Maturities ['1', '0', ' ', 'M', 'o'] = some (1 / 12) ∧
    (1 / 12 : ℚ) ≠ 10 / 12 := by
  constructor
  · have h := Maturities_Mo_two '1' '0' (by decide)
    have hd : digitVal '1' = 1 := rfl
    rw [hd] at h
    rw [h]
    norm_num
  · norm_num

/-- C4 amended: a label ending in Mo contributes only its FIRST character,
parsed as an int and divided by 12 (which matches the claim only for
single-digit month tenors); any other label contributes only its first TWO
characters parsed as an int (trailing space stripped), taken as whole
years. -/
theorem C4_amended_slice_semantics (c₁ c₂ : Char) (h₁ : c₁.isDigit = true)
    (h₂ : c₂.isDigit = true) :
    Maturities [c₁, c₂, ' ', 'M', 'o'] = some ((digitVal c₁ : ℚ) / 12) ∧
    Maturities [c₁, ' ', 'M', 'o'] = some ((digitVal c₁ : ℚ) / 12) ∧
    Maturities [c₁, c₂, ' ', 'Y', 'r'] = some ((digitVal c₁ * 10 + digitVal c₂ : ℕ) : ℚ) ∧
    Maturities [c₁, ' ', 'Y', 'r'] = some ((digitVal c₁ : ℕ) : ℚ) :=
  ⟨Maturities_Mo_two c₁ c₂ h₁, Maturities_Mo_one c₁ h₁,
    Maturities_Yr_two c₁ c₂ h₁ h₂, Maturities_Yr_one c₁ h₁⟩

/-- Witness for the amended C4 at the digits one and zero. -/
theorem C4_amended_witness :
    Maturities ['1', '0', ' ', 'M', 'o'] = some ((digitVal '1' : ℚ) / 12) ∧
    Maturities ['1', '0', ' ', 'Y', 'r'] = some ((digitVal '1' * 10 + digitVal '0' : ℕ) : ℚ) := by
  have h := C4_amended_slice_semantics '1' '0' (by decide) (by decide)
  exact ⟨h.1, h.2.2.1⟩

/-! ### Concrete curve evaluations shared by the error-handling claims -/

theorem buildCurve_single_tenor :
    buildCurve [(['1', ' ', 'M', 'o'], some 2)] 2 = Except.error CurveErr.aboveRange := by
  have hM := Maturities_Mo_one '1' (by decide)
  have hd : digitVal '1' = 1 := rfl
  rw [hd] at hM
  have hpt : parseTable [(['1', ' ', 'M', 'o'], some 2)] =
      Except.ok [{ rate := some 2, maturity := 1 / 12 }] := by
    norm_num [parseTable, List.mapM, List.mapM.loop, hM, bind, Except.bind, pure, Except.pure]
  have hmg : df_final_merged [{ rate := some 2, maturity := 1 / 12 }] 2 =
      [{ month := 1, year := 1 / 12, maturity := some (1 / 12), rate := some 2 },
       { month := 2, year := 1 / 6, maturity := some (1 / 12), rate := some 2 }] := by
    norm_num [df_final_merged, ffillRows, mergeAll, mergeMonth, List.range', List.filter]
  have hint : interp1d [some (1 / 12), some (1 / 12)] [some 2, some 2] =
      Except.ok { xs := [some (1 / 12), some (1 / 12)], ys := [some 2, some 2] } := by
    norm_num [interp1d, sortPairs, List.insertionSort, List.orderedInsert, xleB]
  have hic : interpCall { xs := [some (1 / 12), some (1 / 12)], ys := [some 2, some 2] }
      [1 / 12, 1 / 6] = Except.error CurveErr.aboveRange := by
    norm_num [interpCall, belowBounds, aboveBounds, ltN]
  simp only [buildCurve, buildCurveFromTable, hpt, hmg, hint, hic, List.map_cons, List.map_nil]

theorem buildCurve_missing_rate :
    (buildCurve [(['1', ' ', 'M', 'o'], none), (['2', ' ', 'M', 'o'], some 4)] 2).map
      (fun rows => rows.map (fun r => r.rateInterp)) = Except.ok [none, some 4] := by
  have hM1 := Maturities_Mo_one '1' (by decide)
  have hM2 := Maturities_Mo_one '2' (by decide)
  have hd1 : digitVal '1' = 1 := rfl
  have hd2 : digitVal '2' = 2 := rfl
  rw [hd1] at hM1
  rw [hd2] at hM2
  have hpt : parseTable [(['1', ' ', 'M', 'o'], none), (['2', ' ', 'M', 'o'], some 4)] =
      Except.ok [{ rate := none, maturity := 1 / 12 }, { rate := some 4, maturity := 1 / 6 }] := by
    norm_num [parseTable, List.mapM, List.mapM.loop, hM1, hM2, bind, Except.bind, pure, Except.pure]
  have hmg : df_final_merged
      [{ rate := none, maturity := 1 / 12 }, { rate := some 4, maturity := 1 / 6 }] 2 =
      [{ month := 1, year := 1 / 12, maturity := some (1 / 12), rate := none },
       { month := 2, year := 1 / 6, maturity := some (1 / 6), rate := some 4 }] := by
    norm_num [df_final_merged, ffillRows, mergeAll, mergeMonth, List.range', List.filter]
  have hint : interp1d [some (1 / 12), some (1 / 6)] [none, some 4] =
      Except.ok { xs := [some (1 / 12), some (1 / 6)], ys := [none, some 4] } := by
    norm_num [interp1d, sortPairs, List.insertionSort, List.orderedInsert, xleB]
  have hic : interpCall { xs := [some (1 / 12), some (1 / 6)], ys := [none, some 4] }
      [1 / 12, 1 / 6] = Except.ok [none, some 4] := by
    norm_num [interpCall, belowBounds, aboveBounds, ltN, npInterp, largestLE, leN,
      List.takeWhile, addN, subN, mulN, divN]
  simp only [buildCurve, buildCurveFromTable, hpt, hmg, hint, hic, List.map_cons,
    List.map_nil, Except.map, List.zipWith_cons_cons, List.zipWith_nil_right]

/-! ### Claim C6 -/

/-- C6 counterexample: a curve whose first tenor has a missing (NaN) rate is
not rejected at all: the builder returns the full two-month curve, the
missing rate surfacing only as a NaN interpolated rate at month 1.  No
CurveDataError exists in the source. -/
theorem C6_counterexample :
    (buildCurve [(['1', ' ', 'M', 'o'], none), (['2', ' ', 'M', 'o'], some 4)] 2).map
      (fun rows => rows.map (fun r => r.rateInterp)) = Except.ok [none, some 4] :=
  buildCurve_missing_rate

/-- C6 amended: the source defines no CurveDataError and validates nothing
itself.  A curve with a single distinct maturity still builds the
interpolator (the forward-filled frame repeats the one maturity, passing the
two-entry length check) and the run fails only with scipy's out-of-range
ValueError once a later month's query exceeds that maturity; a missing
annual rate is not detected at all — the curve is produced with a NaN
interpolated rate at the affected months and no error. -/
theorem C6_amended_library_errors :
    buildCurve [(['1', ' ', 'M', 'o'], some 2)] 2 = Except.error CurveErr.aboveRange ∧
    (buildCurve [(['1', ' ', 'M', 'o'], none), (['2', ' ', 'M', 'o'], some 4)] 2).map
      (fun rows => rows.map (fun r => r.rateInterp)) = Except.ok [none, some 4] :=
  ⟨buildCurve_single_tenor, buildCurve_missing_rate⟩

/-! ### Claim C9 -/

/-- C9: for per-month interpolated rates that are strictly positive and
strictly increasing in the month, the discount factors of line 148 are
strictly decreasing: month m+1's discount factor is below month m's, for
every m with 1 ≤ m and m+1 ≤ H. -/
theorem C9_vdf_strictly_decreasing (r : ℕ → ℚ) (H : ℕ)
    (hpos : ∀ m, 1 ≤ m → m ≤ H → 0 < r m)
    (hmono : ∀ m, 1 ≤ m → m + 1 ≤ H → r m < r (m + 1))
    (m : ℕ) (h1 : 1 ≤ m) (h2 : m + 1 ≤ H) :
    VDFval (r (m + 1)) (((m : ℚ) + 1) / 12) < VDFval (r m) ((m : ℚ) / 12) := by
  have hrm : 0 < r m := hpos m h1 (by omega)
  have hlt : r m < r (m + 1) := hmono m h1 h2
  have hrmR : (0 : ℝ) < (r m : ℝ) := by exact_mod_cast hrm
  have hltR : (r m : ℝ) < (r (m + 1) : ℝ) := by exact_mod_cast hlt
  unfold VDFval
  have e1 : ((((m : ℚ) + 1) / 12 : ℚ) : ℝ) = ((m : ℝ) + 1) / 12 := by
    push_cast; ring
  have e0 : (((m : ℚ) / 12 : ℚ) : ℝ) = (m : ℝ) / 12 := by
    push_cast; ring
  rw [e1, e0]
  have ha : (1 : ℝ) < 1 + (r m : ℝ) / 100 := by linarith
  have ha0 : (0 : ℝ) < 1 + (r m : ℝ) / 100 := by linarith
  have hb : 1 + (r m : ℝ) / 100 < 1 + (r (m + 1) : ℝ) / 100 := by linarith
  have hy1pos : (0 : ℝ) < ((m : ℝ) + 1) / 12 := by positivity
  have hz : -(((m : ℝ) + 1) / 12) < 0 := by linarith
  have step1 : (1 + (r (m + 1) : ℝ) / 100) ^ (-(((m : ℝ) + 1) / 12)) <
      (1 + (r m : ℝ) / 100) ^ (-(((m : ℝ) + 1) / 12)) :=
    Real.rpow_lt_rpow_of_neg ha0 hb hz
  have hexp : -(((m : ℝ) + 1) / 12) < -((m : ℝ) / 12) := by
    have : (m : ℝ) / 12 < ((m : ℝ) + 1) / 12 := by linarith
    linarith
  have step2 : (1 + (r m : ℝ) / 100) ^ (-(((m : ℝ) + 1) / 12)) <
      (1 + (r m : ℝ) / 100) ^ (-((m : ℝ) / 12)) :=
    Real.rpow_lt_rpow_of_exponent_lt ha hexp
  exact lt_trans step1 step2

/-- Witness for C9 with the rate curve r(m) = m over a two-month horizon. -/
theorem C9_witness :
    VDFval ((2 : ℕ) : ℚ) ((((1 : ℕ) : ℚ) + 1) / 12) < VDFval ((1 : ℕ) : ℚ) (((1 : ℕ) : ℚ) / 12) := by
  have h := C9_vdf_strictly_decreasing (fun n => (n : ℚ)) 2
    (fun m hm _ => by simp only; exact_mod_cast hm)
    (fun m _ _ => by simp only; exact_mod_cast Nat.lt_succ_self m)
    1 (le_refl 1) (by norm_num)
  exact h

/-! ### Structure of the merged frame, shared by the curve claims -/

theorem ffillRows_length (pm pr : Option ℚ) (l : List MergedRow) :
    (ffillRows pm pr l).length = l.length := by
  induction l generalizing pm pr with
  | nil => rfl
  | cons r rest ih => simp [ffillRows, ih]

theorem mem_ffillRows_month_year (pm pr : Option ℚ) (l : List MergedRow) :
    ∀ r ∈ ffillRows pm pr l, ∃ s ∈ l, r.month = s.month ∧ r.year = s.year := by
  induction l generalizing pm pr with
  | nil => intro r hr; simp [ffillRows] at hr
  | cons a rest ih =>
    intro r hr
    simp only [ffillRows, List.mem_cons] at hr
    rcases hr with rfl | hr
    · exact ⟨a, List.mem_cons_self a rest, rfl, rfl⟩
    · rcases ih _ _ r hr with ⟨s, hs, h1, h2⟩
      exact ⟨s, List.mem_cons_of_mem a hs, h1, h2⟩

theorem mem_mergeMonth_fields (tbl : List CurveRow) (m : ℕ) :
    ∀ r ∈ mergeMonth tbl m, r.month = m ∧ r.year = (m : ℚ) / 12 := by
  intro r hr
  simp only [mergeMonth] at hr
  by_cases he : (tbl.filter (fun c => decide (c.maturity = (m : ℚ) / 12))).isEmpty
  · rw [if_pos he] at hr
    simp only [List.mem_singleton] at hr
    subst hr
    exact ⟨rfl, rfl⟩
  · rw [if_neg he] at hr
    simp only [List.mem_map] at hr
    rcases hr with ⟨c, _, rfl⟩
    exact ⟨rfl, rfl⟩

theorem mem_mergeAll_fields (tbl : List CurveRow) (H : ℕ) :
    ∀ r ∈ mergeAll tbl H, 1 ≤ r.month ∧ r.month ≤ H ∧ r.year = (r.month : ℚ) / 12 := by
  intro r hr
  unfold mergeAll at hr
  rcases List.mem_flatMap.mp hr with ⟨m, hm, hrm⟩
  rcases List.mem_range'_1.mp hm with ⟨hm1, hm2⟩
  rcases mem_mergeMonth_fields tbl m r hrm with ⟨hmo, hyr⟩
  refine ⟨by omega, by omega, ?_⟩
  rw [hyr, hmo]

theorem mem_df_final_merged_fields (tbl : List CurveRow) (H : ℕ) :
    ∀ r ∈ df_final_merged tbl H,
      1 ≤ r.month ∧ r.month ≤ H ∧ r.year = (r.month : ℚ) / 12 := by
  intro r hr
  rcases mem_ffillRows_month_year none none (mergeAll tbl H) r hr with ⟨s, hs, h1, h2⟩
  rcases mem_mergeAll_fields tbl H s hs with ⟨g1, g2, g3⟩
  exact ⟨by omega, by omega, by rw [h2, g3, h1]⟩

/-! ### Claim C1 -/

/-- C1: every row the curve builder returns carries a month in 1..H, its
year fraction is exactly month/12, and its discount factor is exactly
(1 + interpolated rate / 100) to the power -(month/12) — NaN rates giving
NaN discount factors. -/
theorem C1_discount_factor_formula (points : List (List Char × Option ℚ)) (H : ℕ)
    (rows : List MonthRow) (hok : buildCurve points H = Except.ok rows)
    (i : ℕ) (hi : i < rows.length) :
    1 ≤ (rows.getD i { month := 0, year := 0, rateInterp := none }).month ∧
    (rows.getD i { month := 0, year := 0, rateInterp := none }).month ≤ H ∧
    (rows.getD i { month := 0, year := 0, rateInterp := none }).year =
      ((rows.getD i { month := 0, year := 0, rateInterp := none }).month : ℚ) / 12 ∧
    VDF (rows.getD i { month := 0, year := 0, rateInterp := none }) =
      (rows.getD i { month := 0, year := 0, rateInterp := none }).rateInterp.map
        (fun (ri : ℚ) => (1 + (ri : ℝ) / 100) ^
          (-(((rows.getD i { month := 0, year := 0, rateInterp := none }).month : ℝ) / 12))) := by
  unfold buildCurve at hok
  split at hok
  · exact absurd hok (by simp)
  next tbl _ =>
    unfold buildCurveFromTable at hok
    split at hok
    · exact absurd hok (by simp)
    next f _ =>
      split at hok
      · exact absurd hok (by simp)
      next rates _ =>
        rw [Except.ok.injEq] at hok
        subst hok
        have hi2 := hi
        rw [List.length_zipWith, Nat.lt_min] at hi2
        have hi' : i < (df_final_merged tbl H).length := hi2.1
        have hiR : i < rates.length := hi2.2
        rw [List.getD_eq_getElem _ _ hi, List.getElem_zipWith]
        have hmem := List.getElem_mem hi'
        rcases mem_df_final_merged_fields tbl H _ hmem with ⟨g1, g2, g3⟩
        refine ⟨g1, g2, g3, ?_⟩
        unfold VDF VDFval
        rw [g3]
        have hcast : (((((df_final_merged tbl H)[i].month : ℚ)) / 12 : ℚ) : ℝ) =
            ((df_final_merged tbl H)[i].month : ℝ) / 12 := by
          push_cast
          ring
        rcases rates[i] with _ | v
        · rfl
        · simp only [Option.map_some']
          rw [hcast]

/-- Witness for C1: a two-tenor curve over a two-month horizon; month 1's
discount factor is (1 + 2/100) to the power -(1/12). -/
theorem C1_witness :
    buildCurve [(['1', ' ', 'M', 'o'], some 2), (['2', ' ', 'M', 'o'], some 3)] 2 =
      Except.ok [{ month := 1, year := 1 / 12, rateInterp := some 2 },
        { month := 2, year := 1 / 6, rateInterp := some 3 }] ∧
    VDF { month := 1, year := 1 / 12, rateInterp := some 2 } =
      (some (2 : ℚ)).map (fun (ri : ℚ) => (1 + (ri : ℝ) / 100) ^ (-(((1 : ℕ) : ℝ) / 12))) := by
  have hM1 := Maturities_Mo_one '1' (by decide)
  have hM2 := Maturities_Mo_one '2' (by decide)
  have hd1 : digitVal '1' = 1 := rfl
  have hd2 : digitVal '2' = 2 := rfl
  rw [hd1] at hM1
  rw [hd2] at hM2
  have hpt : parseTable [(['1', ' ', 'M', 'o'], some 2), (['2', ' ', 'M', 'o'], some 3)] =
      Except.ok [{ rate := some 2, maturity := 1 / 12 }, { rate := some 3, maturity := 1 / 6 }] := by
    norm_num [parseTable, List.mapM, List.mapM.loop, hM1, hM2, bind, Except.bind, pure, Except.pure]
  have hmg : df_final_merged
      [{ rate := some 2, maturity := 1 / 12 }, { rate := some 3, maturity := 1 / 6 }] 2 =
      [{ month := 1, year := 1 / 12, maturity := some (1 / 12), rate := some 2 },
       { month := 2, year := 1 / 6, maturity := some (1 / 6), rate := some 3 }] := by
    norm_num [df_final_merged, ffillRows, mergeAll, mergeMonth, List.range', List.filter]
  have hint : interp1d [some (1 / 12), some (1 / 6)] [some 2, some 3] =
      Except.ok { xs := [some (1 / 12), some (1 / 6)], ys := [some 2, some 3] } := by
    norm_num [interp1d, sortPairs, List.insertionSort, List.orderedInsert, xleB]
  have hic : interpCall { xs := [some (1 / 12), some (1 / 6)], ys := [some 2, some 3] }
      [1 / 12, 1 / 6] = Except.ok [some 2, some 3] := by
    norm_num [interpCall, belowBounds, aboveBounds, ltN, npInterp, largestLE, leN,
      List.takeWhile, addN, subN, mulN, divN]
  have hb : buildCurve [(['1', ' ', 'M', 'o'], some 2), (['2', ' ', 'M', 'o'], some 3)] 2 =
      Except.ok [{ month := 1, year := 1 / 12, rateInterp := some 2 },
        { month := 2, year := 1 / 6, rateInterp := some 3 }] := by
    simp only [buildCurve, buildCurveFromTable, hpt, hmg, hint, hic, List.map_cons,
      List.map_nil, List.zipWith_cons_cons, List.zipWith_nil_right]
  refine ⟨hb, ?_⟩
  have h := C1_discount_factor_formula _ 2 _ hb 0 (by norm_num)
  simpa using h.2.2.2

/-! ### Knot bookkeeping lemmas for the interpolation claim -/

theorem div12_inj {a b : ℕ} : (a : ℚ) / 12 = (b : ℚ) / 12 ↔ a = b := by
  constructor
  · intro h
    have h2 : (a : ℚ) = (b : ℚ) := by linarith
    exact_mod_cast h2
  · intro h; rw [h]

theorem lastKnotLE_mem_le {ks : List (ℕ × ℚ)} {m : ℕ} {q : ℕ × ℚ}
    (h : lastKnotLE ks m = some q) : q ∈ ks ∧ q.1 ≤ m := by
  induction ks with
  | nil => simp [lastKnotLE] at h
  | cons p rest ih =>
    simp only [lastKnotLE] at h
    cases hr : lastKnotLE rest m with
    | some q' =>
      rw [hr] at h
      simp only [Option.some.injEq] at h
      subst h
      rcases ih hr with ⟨h1, h2⟩
      exact ⟨List.mem_cons_of_mem p h1, h2⟩
    | none =>
      rw [hr] at h
      by_cases hp : p.1 ≤ m
      · rw [if_pos hp] at h
        simp only [Option.some.injEq] at h
        subst h
        exact ⟨List.mem_cons_self p rest, hp⟩
      · rw [if_neg hp] at h
        exact absurd h (by simp)

theorem lastKnotLE_zero {ks : List (ℕ × ℚ)} (hpos : ∀ p ∈ ks, 1 ≤ p.1) :
    lastKnotLE ks 0 = none := by
  induction ks with
  | nil => rfl
  | cons p rest ih =>
    have hp : 1 ≤ p.1 := hpos p (List.mem_cons_self p rest)
    have hrest := ih (fun q hq => hpos q (List.mem_cons_of_mem p hq))
    simp only [lastKnotLE, hrest]
    rw [if_neg (by omega)]

theorem month_inj {ks : List (ℕ × ℚ)}
    (hpw : List.Pairwise (fun a b => a.1 < b.1) ks) {p q : ℕ × ℚ}
    (hp : p ∈ ks) (hq : q ∈ ks) (h : p.1 = q.1) : p = q := by
  induction ks with
  | nil => simp at hp
  | cons a rest ih =>
    rcases List.pairwise_cons.mp hpw with ⟨hall, hpw'⟩
    rcases List.mem_cons.mp hp with rfl | hp'
    · rcases List.mem_cons.mp hq with rfl | hq'
      · rfl
      · exact absurd h (by have := hall q hq'; omega)
    · rcases List.mem_cons.mp hq with rfl | hq'
      · exact absurd h (by have := hall p hp'; omega)
      · exact ih hpw' hp' hq'

theorem lastKnotLE_max {ks : List (ℕ × ℚ)}
    (hpw : List.Pairwise (fun a b => a.1 < b.1) ks) {k : ℕ × ℚ}
    (hk : k ∈ ks) {m : ℕ} (hle : k.1 ≤ m) :
    ∃ q, lastKnotLE ks m = some q ∧ k.1 ≤ q.1 := by
  induction ks with
  | nil => simp at hk
  | cons p rest ih =>
    rcases List.pairwise_cons.mp hpw with ⟨hall, hpw'⟩
    rcases List.mem_cons.mp hk with rfl | hk'
    · cases hr : lastKnotLE rest m with
      | some q' =>
        refine ⟨q', by simp [lastKnotLE, hr], ?_⟩
        have hmem := (lastKnotLE_mem_le hr).1
        exact le_of_lt (hall q' hmem)
      | none =>
        refine ⟨k, ?_, le_refl _⟩
        simp only [lastKnotLE, hr]
        rw [if_pos hle]
    · rcases ih hpw' hk' with ⟨q, hq, hkq⟩
      exact ⟨q, by simp [lastKnotLE, hq], hkq⟩

theorem lastKnotLE_eq_of_knot {ks : List (ℕ × ℚ)}
    (hpw : List.Pairwise (fun a b => a.1 < b.1) ks) {k : ℕ × ℚ}
    (hk : k ∈ ks) : lastKnotLE ks k.1 = some k := by
  rcases lastKnotLE_max hpw hk (le_refl k.1) with ⟨q, hq, hkq⟩
  rcases lastKnotLE_mem_le hq with ⟨hqmem, hqle⟩
  have : q = k := month_inj hpw hqmem hk (by omega)
  rw [hq, this]

theorem lastKnotLE_congr {ks : List (ℕ × ℚ)} {m m' : ℕ} (hmm : m' ≤ m)
    (hgap : ∀ p ∈ ks, ¬(m' < p.1 ∧ p.1 ≤ m)) :
    lastKnotLE ks m = lastKnotLE ks m' := by
  induction ks with
  | nil => rfl
  | cons p rest ih =>
    have hp := hgap p (List.mem_cons_self p rest)
    have hrest := ih (fun q hq => hgap q (List.mem_cons_of_mem p hq))
    simp only [lastKnotLE, hrest]
    by_cases h1 : p.1 ≤ m'
    · rw [if_pos h1, if_pos (by omega : p.1 ≤ m)]
    · rw [if_neg h1, if_neg (by omega : ¬(p.1 ≤ m))]

theorem firstKnotGE_mem_ge {ks : List (ℕ × ℚ)} {m : ℕ} {k : ℕ × ℚ}
    (h : firstKnotGE ks m = some k) : k ∈ ks ∧ m ≤ k.1 := by
  induction ks with
  | nil => simp [firstKnotGE] at h
  | cons p rest ih =>
    simp only [firstKnotGE] at h
    by_cases hp : m ≤ p.1
    · rw [if_pos hp] at h
      simp only [Option.some.injEq] at h
      subst h
      exact ⟨List.mem_cons_self p rest, hp⟩
    · rw [if_neg hp] at h
      rcases ih h with ⟨h1, h2⟩
      exact ⟨List.mem_cons_of_mem p h1, h2⟩

theorem firstKnotGE_min {ks : List (ℕ × ℚ)}
    (hpw : List.Pairwise (fun a b => a.1 < b.1) ks) {k : ℕ × ℚ}
    (hk : k ∈ ks) {m : ℕ} (hge : m ≤ k.1) :
    ∃ q, firstKnotGE ks m = some q ∧ q.1 ≤ k.1 := by
  induction ks with
  | nil => simp at hk
  | cons p rest ih =>
    rcases List.pairwise_cons.mp hpw with ⟨hall, hpw'⟩
    by_cases hp : m ≤ p.1
    · refine ⟨p, by simp [firstKnotGE, hp], ?_⟩
      rcases List.mem_cons.mp hk with rfl | hk'
      · exact le_refl _
      · exact le_of_lt (hall k hk')
    · have hk' : k ∈ rest := by
        rcases List.mem_cons.mp hk with rfl | hk'
        · omega
        · exact hk'
      rcases ih hpw' hk' with ⟨q, hq, hqk⟩
      exact ⟨q, by simp [firstKnotGE, hp, hq], hqk⟩

theorem firstKnotGE_eq_of_knot {ks : List (ℕ × ℚ)}
    (hpw : List.Pairwise (fun a b => a.1 < b.1) ks) {k : ℕ × ℚ}
    (hk : k ∈ ks) : firstKnotGE ks k.1 = some k := by
  rcases firstKnotGE_min hpw hk (le_refl k.1) with ⟨q, hq, hqk⟩
  rcases firstKnotGE_mem_ge hq with ⟨hqmem, hqge⟩
  have : q = k := month_inj hpw hqmem hk (by omega)
  rw [hq, this]

theorem firstKnotGE_congr {ks : List (ℕ × ℚ)} {m m' : ℕ} (hmm : m ≤ m')
    (hgap : ∀ p ∈ ks, ¬(m ≤ p.1 ∧ p.1 < m')) :
    firstKnotGE ks m = firstKnotGE ks m' := by
  induction ks with
  | nil => rfl
  | cons p rest ih =>
    have hp := hgap p (List.mem_cons_self p rest)
    have hrest := ih (fun q hq => hgap q (List.mem_cons_of_mem p hq))
    simp only [firstKnotGE, hrest]
    by_cases h1 : m' ≤ p.1
    · rw [if_pos (by omega : m ≤ p.1), if_pos h1]
    · rw [if_neg (by omega : ¬(m ≤ p.1)), if_neg h1]

/-! ### Characterization of the merged, forward-filled frame on a knot table -/

theorem filter_month {ks : List (ℕ × ℚ)}
    (hpw : List.Pairwise (fun a b => a.1 < b.1) ks) (m : ℕ) :
    ks.filter (fun p => decide (p.1 = m)) =
      (ks.find? (fun p => decide (p.1 = m))).toList := by
  induction ks with
  | nil => rfl
  | cons p rest ih =>
    rcases List.pairwise_cons.mp hpw with ⟨hall, hpw'⟩
    by_cases hp : p.1 = m
    · have hrest : rest.filter (fun p => decide (p.1 = m)) = [] := by
        rw [List.filter_eq_nil_iff]
        intro q hq
        have := hall q hq
        simp only [decide_eq_true_eq]
        omega
      simp [List.filter_cons, List.find?_cons, hp, hrest]
    · simp [List.filter_cons, List.find?_cons, hp, ih hpw']

theorem mergeMonth_tblOfKnots {ks : List (ℕ × ℚ)}
    (hpw : List.Pairwise (fun a b => a.1 < b.1) ks) (m : ℕ) :
    mergeMonth (tblOfKnots ks) m =
      match ks.find? (fun p => decide (p.1 = m)) with
      | some p => [MergedRow.mk m ((m : ℚ) / 12) (some ((p.1 : ℚ) / 12)) (some p.2)]
      | none => [MergedRow.mk m ((m : ℚ) / 12) none none] := by
  have hfm : (tblOfKnots ks).filter (fun r => decide (r.maturity = (m : ℚ) / 12)) =
      ((ks.filter (fun p => decide (p.1 = m))).map
        (fun p => ({ rate := some p.2, maturity := (p.1 : ℚ) / 12 } : CurveRow))) := by
    unfold tblOfKnots
    rw [List.filter_map]
    congr 1
    apply List.filter_congr
    intro p _
    simp only [Function.comp_apply, decide_eq_decide]
    exact div12_inj
  unfold mergeMonth
  rw [hfm, filter_month hpw m]
  cases hf : ks.find? (fun p => decide (p.1 = m)) with
  | none => simp
  | some p => simp

theorem ffill_mergeAll_knots {ks : List (ℕ × ℚ)}
    (hpw : List.Pairwise (fun a b => a.1 < b.1) ks) :
    ∀ (cnt s : ℕ), 1 ≤ s →
      ffillRows ((lastKnotLE ks (s - 1)).map (fun q => (q.1 : ℚ) / 12))
        ((lastKnotLE ks (s - 1)).map (fun q => q.2))
        ((List.range' s cnt).flatMap (mergeMonth (tblOfKnots ks))) =
      (List.range' s cnt).map (mrowSpec ks) := by
  intro cnt
  induction cnt with
  | zero => intro s _; rfl
  | succ n ih =>
    intro s hs
    rw [List.range'_succ, List.flatMap_cons, List.map_cons,
      mergeMonth_tblOfKnots hpw s]
    cases hf : ks.find? (fun p => decide (p.1 = s)) with
    | some p =>
      have hps : p.1 = s := by
        have := List.find?_some hf
        simpa using this
      have hpmem : p ∈ ks := List.mem_of_find?_eq_some hf
      have hlast : lastKnotLE ks s = some p := by
        have := lastKnotLE_eq_of_knot hpw hpmem
        rwa [hps] at this
      simp only [List.singleton_append, ffillRows]
      rw [List.cons_eq_cons]
      constructor
      · unfold mrowSpec
        rw [hlast]
      · have := ih (s + 1) (by omega)
        simp only [Nat.add_sub_cancel] at this
        rw [hlast] at this
        simpa using this
    | none =>
      have hnone : ∀ p ∈ ks, p.1 ≠ s := by
        intro p hp
        have := List.find?_eq_none.mp hf p hp
        simpa using this
      have hcongr : lastKnotLE ks s = lastKnotLE ks (s - 1) := by
        apply lastKnotLE_congr (by omega)
        intro p hp
        have := hnone p hp
        omega
      simp only [List.singleton_append, ffillRows]
      rw [List.cons_eq_cons]
      constructor
      · unfold mrowSpec
        rw [hcongr]
        cases lastKnotLE ks (s - 1) with
        | none => rfl
        | some q => rfl
      · have := ih (s + 1) (by omega)
        simp only [Nat.add_sub_cancel] at this
        rw [hcongr] at this
        simpa using this

theorem df_final_merged_knots {ks : List (ℕ × ℚ)}
    (hpw : List.Pairwise (fun a b => a.1 < b.1) ks)
    (hpos : ∀ p ∈ ks, 1 ≤ p.1) (H : ℕ) :
    df_final_merged (tblOfKnots ks) H = (List.range' 1 H).map (mrowSpec ks) := by
  unfold df_final_merged mergeAll
  have := ffill_mergeAll_knots hpw H 1 (le_refl 1)
  simpa [lastKnotLE_zero hpos] using this

/-! ### The maturity and rate columns of a merged knot frame -/

/-- Maturity column entry of month m: the last knot's maturity, NaN before
the first knot. -/
def prevM (ks : List (ℕ × ℚ)) (m : ℕ) : Option ℚ :=
  (lastKnotLE ks m).map (fun q => (q.1 : ℚ) / 12)

/-- Rate column entry of month m: the last knot's rate, NaN before the
first knot. -/
def prevR (ks : List (ℕ × ℚ)) (m : ℕ) : Option ℚ :=
  (lastKnotLE ks m).map (fun q => q.2)

theorem mrowSpec_month (ks : List (ℕ × ℚ)) (m : ℕ) : (mrowSpec ks m).month = m := by
  unfold mrowSpec
  cases lastKnotLE ks m <;> rfl

theorem mrowSpec_year (ks : List (ℕ × ℚ)) (m : ℕ) :
    (mrowSpec ks m).year = (m : ℚ) / 12 := by
  unfold mrowSpec
  cases lastKnotLE ks m <;> rfl

theorem mrowSpec_maturity (ks : List (ℕ × ℚ)) (m : ℕ) :
    (mrowSpec ks m).maturity = prevM ks m := by
  unfold mrowSpec prevM
  cases lastKnotLE ks m <;> rfl

theorem mrowSpec_rate (ks : List (ℕ × ℚ)) (m : ℕ) :
    (mrowSpec ks m).rate = prevR ks m := by
  unfold mrowSpec prevR
  cases lastKnotLE ks m <;> rfl

theorem div12_le_iff {a b : ℕ} : (a : ℚ) / 12 ≤ (b : ℚ) / 12 ↔ a ≤ b := by
  constructor
  · intro h
    have h2 : (a : ℚ) ≤ (b : ℚ) := by linarith
    exact_mod_cast h2
  · intro h
    have h2 : (a : ℚ) ≤ (b : ℚ) := by exact_mod_cast h
    linarith

theorem div12_lt_iff {a b : ℕ} : (a : ℚ) / 12 < (b : ℚ) / 12 ↔ a < b := by
  constructor
  · intro h
    have h2 : (a : ℚ) < (b : ℚ) := by linarith
    exact_mod_cast h2
  · intro h
    have h2 : (a : ℚ) < (b : ℚ) := by exact_mod_cast h
    linarith

theorem lastKnotLE_month_mono {ks : List (ℕ × ℚ)}
    (hpw : List.Pairwise (fun a b => a.1 < b.1) ks) {m m' : ℕ} (hmm : m ≤ m')
    {q : ℕ × ℚ} (hq : lastKnotLE ks m = some q) :
    ∃ q', lastKnotLE ks m' = some q' ∧ q.1 ≤ q'.1 := by
  induction ks with
  | nil => simp [lastKnotLE] at hq
  | cons p rest ih =>
    rcases List.pairwise_cons.mp hpw with ⟨hall, hpw'⟩
    simp only [lastKnotLE] at hq ⊢
    cases hr : lastKnotLE rest m with
    | some q0 =>
      rw [hr] at hq
      simp only [Option.some.injEq] at hq
      subst hq
      rcases ih hpw' hr with ⟨q', hq', hle⟩
      rw [hq']
      exact ⟨q', rfl, hle⟩
    | none =>
      rw [hr] at hq
      by_cases hp : p.1 ≤ m
      · rw [if_pos hp] at hq
        simp only [Option.some.injEq] at hq
        subst hq
        cases hr' : lastKnotLE rest m' with
        | some q'' =>
          refine ⟨q'', rfl, ?_⟩
          have := hall q'' (lastKnotLE_mem_le hr').1
          omega
        | none =>
          rw [if_pos (by omega : p.1 ≤ m')]
          exact ⟨p, rfl, le_refl _⟩
      · rw [if_neg hp] at hq
        exact absurd hq (by simp)

theorem firstKnotGE_none {ks : List (ℕ × ℚ)} {m : ℕ}
    (h : firstKnotGE ks m = none) : ∀ p ∈ ks, p.1 < m := by
  induction ks with
  | nil => intro p hp; simp at hp
  | cons a rest ih =>
    intro p hp
    simp only [firstKnotGE] at h
    by_cases ha : m ≤ a.1
    · rw [if_pos ha] at h; exact absurd h (by simp)
    · rw [if_neg ha] at h
      rcases List.mem_cons.mp hp with rfl | hp'
      · omega
      · exact ih h p hp'

theorem firstKnotGE_minimal {ks : List (ℕ × ℚ)}
    (hpw : List.Pairwise (fun a b => a.1 < b.1) ks) {m : ℕ} {k : ℕ × ℚ}
    (hk : firstKnotGE ks m = some k) :
    ∀ p ∈ ks, m ≤ p.1 → k.1 ≤ p.1 := by
  intro p hp hmp
  rcases firstKnotGE_min hpw hp hmp with ⟨q, hq, hqp⟩
  rw [hk] at hq
  simp only [Option.some.injEq] at hq
  subst hq
  exact hqp

/-- The sentinel month just past the knots that bracket m from above: the
month of the first knot strictly after m, or H+1 when none exists. -/
def nextKnotMonth (ks : List (ℕ × ℚ)) (m H : ℕ) : ℕ :=
  match firstKnotGE ks (m + 1) with
  | some k => k.1
  | none => H + 1

theorem prevM_le_iff {ks : List (ℕ × ℚ)}
    (hpw : List.Pairwise (fun a b => a.1 < b.1) ks) {r1 : ℚ}
    (h1 : (1, r1) ∈ ks) {H m j : ℕ} (hj : 1 ≤ j) (hjH : j ≤ H) :
    leN (prevM ks j) (some ((m : ℚ) / 12)) = decide (j < nextKnotMonth ks m H) := by
  rcases lastKnotLE_max hpw h1 (by omega : (1, r1).1 ≤ j) with ⟨q, hq, _⟩
  rcases lastKnotLE_mem_le hq with ⟨hqmem, hqle⟩
  have hprev : prevM ks j = some ((q.1 : ℚ) / 12) := by
    unfold prevM; rw [hq]; rfl
  rw [hprev]
  show decide ((q.1 : ℚ) / 12 ≤ (m : ℚ) / 12) = decide (j < nextKnotMonth ks m H)
  rw [decide_eq_decide]
  rw [div12_le_iff]
  cases hf : firstKnotGE ks (m + 1) with
  | some k =>
    simp only [nextKnotMonth, hf]
    rcases firstKnotGE_mem_ge hf with ⟨hkmem, hkge⟩
    have hmin := firstKnotGE_minimal hpw hf
    constructor
    · intro hqm
      by_contra hjk
      push_neg at hjk
      rcases lastKnotLE_max hpw hkmem (by omega : k.1 ≤ j) with ⟨q', hq', hkq'⟩
      rw [hq] at hq'
      simp only [Option.some.injEq] at hq'
      subst hq'
      omega
    · intro hjk
      by_contra hqm
      push_neg at hqm
      have := hmin q hqmem (by omega)
      omega
  | none =>
    simp only [nextKnotMonth, hf]
    have hall := firstKnotGE_none hf
    have := hall q hqmem
    omega

theorem takeWhile_length_range'_map {α : Type} (f : ℕ → α) (p : α → Bool) (K : ℕ) :
    ∀ (n s : ℕ), (∀ j, s ≤ j → j < s + n → p (f j) = decide (j < K)) →
      (((List.range' s n).map f).takeWhile p).length = min n (K - s) := by
  intro n
  induction n with
  | zero => intro s _; simp
  | succ c ih =>
    intro s hpred
    rw [List.range'_succ, List.map_cons, List.takeWhile_cons]
    have hs := hpred s (le_refl s) (by omega)
    rw [hs]
    by_cases hK : s < K
    · rw [if_pos (by simpa using hK)]
      simp only [List.length_cons]
      rw [ih (s + 1) (fun j hj1 hj2 => hpred j (by omega) (by omega))]
      omega
    · rw [if_neg (by simpa using hK)]
      simp only [List.length_nil]
      omega

/-! ### The interpolator construction on a knot frame -/

theorem pairs_pairwise {ks : List (ℕ × ℚ)}
    (hpw : List.Pairwise (fun a b => a.1 < b.1) ks) {r1 : ℚ}
    (h1 : (1, r1) ∈ ks) (H : ℕ) :
    List.Pairwise (fun a b => xleB a.1 b.1 = true)
      ((List.range' 1 H).map (fun m => (prevM ks m, prevR ks m))) := by
  rw [List.pairwise_map]
  apply List.Pairwise.imp_of_mem ?_ (List.pairwise_lt_range' 1 H)
  intro m m' hm hm' hlt
  have hm1 : 1 ≤ m := (List.mem_range'_1.mp hm).1
  rcases lastKnotLE_max hpw h1 (by omega : (1, r1).1 ≤ m) with ⟨q, hq, _⟩
  rcases lastKnotLE_month_mono hpw (le_of_lt hlt) hq with ⟨q', hq', hle⟩
  show xleB (prevM ks m) (prevM ks m') = true
  unfold prevM
  rw [hq, hq']
  show decide ((q.1 : ℚ) / 12 ≤ (q'.1 : ℚ) / 12) = true
  rw [decide_eq_true_eq]
  exact div12_le_iff.mpr hle

theorem interp1d_knots {ks : List (ℕ × ℚ)}
    (hpw : List.Pairwise (fun a b => a.1 < b.1) ks) {r1 : ℚ}
    (h1 : (1, r1) ∈ ks) (H : ℕ) (hH : 2 ≤ H) :
    interp1d ((List.range' 1 H).map (prevM ks)) ((List.range' 1 H).map (prevR ks)) =
      Except.ok (Interp1d.mk ((List.range' 1 H).map (prevM ks))
        ((List.range' 1 H).map (prevR ks))) := by
  unfold interp1d
  rw [if_neg (by simp [List.length_range'])]
  rw [if_neg (by simp only [List.length_map, List.length_range']; omega)]
  unfold sortPairs
  rw [List.zip_map']
  rw [List.Sorted.insertionSort_eq (pairs_pairwise hpw h1 H)]
  simp only [List.map_map]
  rfl

/-! ### Evaluation of numpy.interp on a knot frame -/

theorem getD_map_range' {α : Type} (f : ℕ → α) (d : α) {H i : ℕ} (hi : i < H) :
    ((List.range' 1 H).map f).getD i d = f (1 + i) := by
  rw [List.getD_eq_getElem _ _ (by simpa using hi), List.getElem_map,
    List.getElem_range']
  congr 1
  omega

theorem specInterp_eq {ks : List (ℕ × ℚ)} {m : ℕ} {a b : ℕ × ℚ}
    (hla : lastKnotLE ks m = some a) (hfb : firstKnotGE ks m = some b) :
    specInterp ks m = if a.1 = b.1 then some a.2
      else some (a.2 + (b.2 - a.2) * ((m : ℚ) - (a.1 : ℚ)) / ((b.1 : ℚ) - (a.1 : ℚ))) := by
  obtain ⟨an, ar⟩ := a
  obtain ⟨bn, br⟩ := b
  unfold specInterp
  rw [hla, hfb]

theorem npInterp_knots {ks : List (ℕ × ℚ)}
    (hpw : List.Pairwise (fun a b => a.1 < b.1) ks) {r1 rH : ℚ} {H : ℕ}
    (h1 : (1, r1) ∈ ks) (hHk : (H, rH) ∈ ks)
    (hbd : ∀ p ∈ ks, 1 ≤ p.1 ∧ p.1 ≤ H) (hH : 2 ≤ H)
    {m : ℕ} (hm1 : 1 ≤ m) (hmH : m ≤ H) :
    npInterp ((List.range' 1 H).map (prevM ks)) ((List.range' 1 H).map (prevR ks))
      ((m : ℚ) / 12) = specInterp ks m := by
  have hlenx : ((List.range' 1 H).map (prevM ks)).length = H := by
    simp [List.length_range']
  have hcnt : (((List.range' 1 H).map (prevM ks)).takeWhile
      (fun v => leN v (some ((m : ℚ) / 12)))).length = min H (nextKnotMonth ks m H - 1) := by
    apply takeWhile_length_range'_map (prevM ks)
      (fun v => leN v (some ((m : ℚ) / 12))) (nextKnotMonth ks m H) H 1
    intro j hj1 hj2
    exact prevM_le_iff hpw h1 hj1 (by omega)
  rcases lastKnotLE_max hpw h1 (by omega : (1, r1).1 ≤ m) with ⟨q, hq, _⟩
  rcases lastKnotLE_mem_le hq with ⟨hqmem, hqle⟩
  by_cases hmtop : m = H
  · -- at the last month the query hits the top abscissa and numpy returns
    -- the last ordinate
    subst hmtop
    have hfnone : firstKnotGE ks (m + 1) = none := by
      cases hf : firstKnotGE ks (m + 1) with
      | none => rfl
      | some k =>
        rcases firstKnotGE_mem_ge hf with ⟨hkmem, hkge⟩
        have := (hbd k hkmem).2
        omega
    have hK : nextKnotMonth ks m m = m + 1 := by
      simp [nextKnotMonth, hfnone]
    unfold npInterp largestLE
    rw [hcnt, hK]
    have hmin : min m (m + 1 - 1) = m := by omega
    rw [hmin]
    rw [if_neg (by omega : ¬(m = 0))]
    simp only [hlenx, if_true]
    have hlastH : lastKnotLE ks m = some (m, rH) := lastKnotLE_eq_of_knot hpw hHk
    have hy : ((List.range' 1 m).map (prevR ks)).getD (m - 1) none = some rH := by
      rw [getD_map_range' _ _ (by omega : m - 1 < m)]
      unfold prevR
      rw [show 1 + (m - 1) = m by omega, hlastH]
      rfl
    rw [hy]
    unfold specInterp
    rw [hlastH, firstKnotGE_eq_of_knot hpw (k := (m, rH)) hHk]
    simp
  · -- interior months: the bracketing knots dictate the chord
    have hmlt : m < H := by omega
    cases hf : firstKnotGE ks (m + 1) with
    | none =>
      exfalso
      have := firstKnotGE_none hf (H, rH) hHk
      simp at this
      omega
    | some k =>
      rcases firstKnotGE_mem_ge hf with ⟨hkmem, hkge⟩
      have hkbd := hbd k hkmem
      have hK : nextKnotMonth ks m H = k.1 := by simp [nextKnotMonth, hf]
      have hk2 : 2 ≤ k.1 := by omega
      have hkH : k.1 ≤ H := hkbd.2
      unfold npInterp largestLE
      rw [hcnt, hK]
      have hmin : min H (k.1 - 1) = k.1 - 1 := by omega
      rw [hmin]
      rw [if_neg (by omega : ¬(k.1 - 1 = 0))]
      simp only [hlenx]
      rw [if_neg (by omega : ¬(k.1 - 1 - 1 = H - 1))]
      have hgapK : lastKnotLE ks (k.1 - 1) = lastKnotLE ks m := by
        apply lastKnotLE_congr (by omega : m ≤ k.1 - 1)
        intro p hp hcontra
        have := firstKnotGE_minimal hpw hf p hp (by omega)
        omega
      have hxj : ((List.range' 1 H).map (prevM ks)).getD (k.1 - 1 - 1) none =
          some ((q.1 : ℚ) / 12) := by
        rw [getD_map_range' _ _ (by omega : k.1 - 1 - 1 < H)]
        unfold prevM
        rw [show 1 + (k.1 - 1 - 1) = k.1 - 1 by omega, hgapK, hq]
        rfl
      have hyj : ((List.range' 1 H).map (prevR ks)).getD (k.1 - 1 - 1) none =
          some q.2 := by
        rw [getD_map_range' _ _ (by omega : k.1 - 1 - 1 < H)]
        unfold prevR
        rw [show 1 + (k.1 - 1 - 1) = k.1 - 1 by omega, hgapK, hq]
        rfl
      by_cases hknot : q.1 = m
      · -- the query lands exactly on a knot
        rw [hxj]
        rw [if_pos (by rw [Option.some.injEq]; exact div12_inj.mpr hknot)]
        rw [hyj]
        have hfm : firstKnotGE ks m = some q := by
          have := firstKnotGE_eq_of_knot hpw hqmem
          rwa [hknot] at this
        rw [specInterp_eq hq hfm]
        rw [if_pos rfl]
      · -- strictly between knots: the linear slope formula
        have hqm : q.1 < m := by omega
        rw [hxj]
        rw [if_neg (by
          rw [Option.some.injEq]
          intro hcon
          exact hknot (div12_inj.mp hcon))]
        have hxj1 : ((List.range' 1 H).map (prevM ks)).getD (k.1 - 1 - 1 + 1) none =
            some ((k.1 : ℚ) / 12) := by
          rw [getD_map_range' _ _ (by omega : k.1 - 1 - 1 + 1 < H)]
          have : (1 + (k.1 - 1 - 1 + 1)) = k.1 := by omega
          rw [this]
          unfold prevM
          rw [lastKnotLE_eq_of_knot hpw hkmem]
          rfl
        have hyj1 : ((List.range' 1 H).map (prevR ks)).getD (k.1 - 1 - 1 + 1) none =
            some k.2 := by
          rw [getD_map_range' _ _ (by omega : k.1 - 1 - 1 + 1 < H)]
          have : (1 + (k.1 - 1 - 1 + 1)) = k.1 := by omega
          rw [this]
          unfold prevR
          rw [lastKnotLE_eq_of_knot hpw hkmem]
          rfl
        rw [hxj1, hyj, hyj1]
        have hqk : q.1 < k.1 := by omega
        have hden : (k.1 : ℚ) / 12 - (q.1 : ℚ) / 12 ≠ 0 := by
          have := div12_lt_iff.mpr hqk
          linarith
        unfold subN divN mulN addN
        simp only []
        rw [if_neg hden]
        have hnotknot : ∀ p ∈ ks, ¬(m ≤ p.1 ∧ p.1 < m + 1) := by
          intro p hp hcon
          have hpm : p.1 = m := by omega
          rcases lastKnotLE_max hpw hp (by omega : p.1 ≤ m) with ⟨q', hq', hpq'⟩
          rw [hq] at hq'
          simp only [Option.some.injEq] at hq'
          subst hq'
          omega
        have hfm : firstKnotGE ks m = some k := by
          rw [firstKnotGE_congr (by omega : m ≤ m + 1) hnotknot, hf]
        rw [specInterp_eq hq hfm]
        rw [if_neg (by omega : ¬(q.1 = k.1))]
        rw [Option.some.injEq]
        have hq1 : (q.1 : ℚ) < (k.1 : ℚ) := by exact_mod_cast hqk
        have hne : (k.1 : ℚ) - (q.1 : ℚ) ≠ 0 := by linarith
        have hcomb : (k.1 : ℚ) / 12 - (q.1 : ℚ) / 12 = ((k.1 : ℚ) - (q.1 : ℚ)) / 12 := by
          ring
        have hcomb2 : (m : ℚ) / 12 - (q.1 : ℚ) / 12 = ((m : ℚ) - (q.1 : ℚ)) / 12 := by
          ring
        rw [hcomb, hcomb2]
        rw [div_div_eq_mul_div]
        field_simp
        ring

/-! ### The whole builder on a horizon-covering knot table -/

theorem zipWith_map_same {α β γ δ : Type} (f : β → γ → δ) (g : α → β) (h : α → γ)
    (l : List α) :
    List.zipWith f (l.map g) (l.map h) = l.map (fun x => f (g x) (h x)) := by
  induction l with
  | nil => rfl
  | cons a t ih => simp [ih]

theorem interpCall_knots_ok {ks : List (ℕ × ℚ)}
    (hpw : List.Pairwise (fun a b => a.1 < b.1) ks) {r1 rH : ℚ} {H : ℕ}
    (h1 : (1, r1) ∈ ks) (hHk : (H, rH) ∈ ks) (hH : 2 ≤ H) :
    interpCall (Interp1d.mk ((List.range' 1 H).map (prevM ks))
        ((List.range' 1 H).map (prevR ks)))
      ((List.range' 1 H).map (fun (m : ℕ) => (m : ℚ) / 12)) =
    Except.ok ((List.range' 1 H).map (fun (m : ℕ) =>
      npInterp ((List.range' 1 H).map (prevM ks)) ((List.range' 1 H).map (prevR ks))
        ((m : ℚ) / 12))) := by
  have hx0 : ((List.range' 1 H).map (prevM ks)).getD 0 none = some ((1 : ℚ) / 12) := by
    rw [getD_map_range' _ _ (by omega : 0 < H)]
    unfold prevM
    rw [lastKnotLE_eq_of_knot hpw (k := (1, r1)) h1]
    norm_num
  have hxtop : ((List.range' 1 H).map (prevM ks)).getD
      (((List.range' 1 H).map (prevM ks)).length - 1) none = some ((H : ℚ) / 12) := by
    have hlen : ((List.range' 1 H).map (prevM ks)).length = H := by
      simp [List.length_range']
    rw [hlen, getD_map_range' _ _ (by omega : H - 1 < H)]
    unfold prevM
    rw [show 1 + (H - 1) = H by omega, lastKnotLE_eq_of_knot hpw (k := (H, rH)) hHk]
    rfl
  unfold interpCall
  rw [if_neg ?hbelow]
  case hbelow =>
    rw [List.any_eq_true]
    push_neg
    intro x hx
    rw [List.mem_map] at hx
    rcases hx with ⟨m, hm, rfl⟩
    have hm1 : 1 ≤ m := (List.mem_range'_1.mp hm).1
    unfold belowBounds
    rw [hx0]
    show ¬(decide ((m : ℚ) / 12 < (1 : ℚ) / 12) = true)
    rw [decide_eq_true_eq]
    intro hcon
    have : (1 : ℚ) ≤ (m : ℚ) := by exact_mod_cast hm1
    linarith
  rw [if_neg ?habove]
  case habove =>
    rw [List.any_eq_true]
    push_neg
    intro x hx
    rw [List.mem_map] at hx
    rcases hx with ⟨m, hm, rfl⟩
    have hmH : m < 1 + H := (List.mem_range'_1.mp hm).2
    unfold aboveBounds
    rw [hxtop]
    show ¬(decide ((H : ℚ) / 12 < (m : ℚ) / 12) = true)
    rw [decide_eq_true_eq]
    rw [div12_lt_iff]
    omega
  rw [List.map_map]
  rfl

theorem buildCurveFromTable_knots_ok {ks : List (ℕ × ℚ)}
    (hpw : List.Pairwise (fun a b => a.1 < b.1) ks) {r1 rH : ℚ} {H : ℕ}
    (h1 : (1, r1) ∈ ks) (hHk : (H, rH) ∈ ks)
    (hbd : ∀ p ∈ ks, 1 ≤ p.1 ∧ p.1 ≤ H) (hH : 2 ≤ H) :
    buildCurveFromTable (tblOfKnots ks) H =
      Except.ok ((List.range' 1 H).map (fun m =>
        MonthRow.mk m ((m : ℚ) / 12) (specInterp ks m))) := by
  have hpos : ∀ p ∈ ks, 1 ≤ p.1 := fun p hp => (hbd p hp).1
  have hmg := df_final_merged_knots hpw hpos H
  have hcolM : ((List.range' 1 H).map (mrowSpec ks)).map (fun r => r.maturity) =
      (List.range' 1 H).map (prevM ks) := by
    rw [List.map_map]
    apply List.map_congr_left
    intro m _
    exact mrowSpec_maturity ks m
  have hcolR : ((List.range' 1 H).map (mrowSpec ks)).map (fun r => r.rate) =
      (List.range' 1 H).map (prevR ks) := by
    rw [List.map_map]
    apply List.map_congr_left
    intro m _
    exact mrowSpec_rate ks m
  have hcolY : ((List.range' 1 H).map (mrowSpec ks)).map (fun r => r.year) =
      (List.range' 1 H).map (fun (m : ℕ) => (m : ℚ) / 12) := by
    rw [List.map_map]
    apply List.map_congr_left
    intro m _
    exact mrowSpec_year ks m
  unfold buildCurveFromTable
  rw [hmg, hcolM, hcolR, hcolY]
  rw [interp1d_knots hpw h1 H hH]
  simp only []
  rw [interpCall_knots_ok hpw h1 hHk hH]
  simp only []
  rw [zipWith_map_same]
  rw [Except.ok.injEq]
  apply List.map_congr_left
  intro m hm
  rcases List.mem_range'_1.mp hm with ⟨hm1, hm2⟩
  rw [mrowSpec_month, mrowSpec_year]
  rw [npInterp_knots hpw h1 hHk hbd hH hm1 (by omega)]

/-! ### The builder fails above the last knot (no flat extrapolation) -/

theorem buildCurveFromTable_knots_above {ks : List (ℕ × ℚ)}
    (hpw : List.Pairwise (fun a b => a.1 < b.1) ks) {r1 rL : ℚ} {L H : ℕ}
    (h1 : (1, r1) ∈ ks) (hLk : (L, rL) ∈ ks)
    (hbd : ∀ p ∈ ks, 1 ≤ p.1 ∧ p.1 ≤ L) (hLH : L < H) (hH : 2 ≤ H) :
    buildCurveFromTable (tblOfKnots ks) H = Except.error CurveErr.aboveRange := by
  have hpos : ∀ p ∈ ks, 1 ≤ p.1 := fun p hp => (hbd p hp).1
  have hmg := df_final_merged_knots hpw hpos H
  have hcolM : ((List.range' 1 H).map (mrowSpec ks)).map (fun r => r.maturity) =
      (List.range' 1 H).map (prevM ks) := by
    rw [List.map_map]
    apply List.map_congr_left
    intro m _
    exact mrowSpec_maturity ks m
  have hcolR : ((List.range' 1 H).map (mrowSpec ks)).map (fun r => r.rate) =
      (List.range' 1 H).map (prevR ks) := by
    rw [List.map_map]
    apply List.map_congr_left
    intro m _
    exact mrowSpec_rate ks m
  have hcolY : ((List.range' 1 H).map (mrowSpec ks)).map (fun r => r.year) =
      (List.range' 1 H).map (fun (m : ℕ) => (m : ℚ) / 12) := by
    rw [List.map_map]
    apply List.map_congr_left
    intro m _
    exact mrowSpec_year ks m
  have hx0 : ((List.range' 1 H).map (prevM ks)).getD 0 none = some ((1 : ℚ) / 12) := by
    rw [getD_map_range' _ _ (by omega : 0 < H)]
    unfold prevM
    rw [lastKnotLE_eq_of_knot hpw (k := (1, r1)) h1]
    norm_num
  have hxtop : ((List.range' 1 H).map (prevM ks)).getD
      (((List.range' 1 H).map (prevM ks)).length - 1) none = some ((L : ℚ) / 12) := by
    have hlen : ((List.range' 1 H).map (prevM ks)).length = H := by
      simp [List.length_range']
    rw [hlen, getD_map_range' _ _ (by omega : H - 1 < H)]
    unfold prevM
    have hcongr : lastKnotLE ks (1 + (H - 1)) = lastKnotLE ks L := by
      apply lastKnotLE_congr (by omega)
      intro p hp hcon
      have := (hbd p hp).2
      omega
    rw [hcongr, lastKnotLE_eq_of_knot hpw (k := (L, rL)) hLk]
    rfl
  unfold buildCurveFromTable
  rw [hmg, hcolM, hcolR, hcolY]
  rw [interp1d_knots hpw h1 H hH]
  simp only []
  unfold interpCall
  rw [if_neg ?hbelow]
  case hbelow =>
    rw [List.any_eq_true]
    push_neg
    intro x hx
    rw [List.mem_map] at hx
    rcases hx with ⟨m, hm, rfl⟩
    have hm1 : 1 ≤ m := (List.mem_range'_1.mp hm).1
    unfold belowBounds
    rw [hx0]
    show ¬(decide ((m : ℚ) / 12 < (1 : ℚ) / 12) = true)
    rw [decide_eq_true_eq]
    intro hcon
    have : (1 : ℚ) ≤ (m : ℚ) := by exact_mod_cast hm1
    linarith
  rw [if_pos ?habove]
  case habove =>
    rw [List.any_eq_true]
    refine ⟨(H : ℚ) / 12, List.mem_map.mpr ⟨H, List.mem_range'_1.mpr ⟨by omega, by omega⟩, rfl⟩, ?_⟩
    unfold aboveBounds
    rw [hxtop]
    show decide ((L : ℚ) / 12 < (H : ℚ) / 12) = true
    rw [decide_eq_true_eq]
    exact div12_lt_iff.mpr hLH

/-! ### The builder fails below the first knot (no flat extrapolation) -/

theorem lastKnotLE_none_of_lt {ks : List (ℕ × ℚ)} {m : ℕ}
    (h : ∀ p ∈ ks, m < p.1) : lastKnotLE ks m = none := by
  induction ks with
  | nil => rfl
  | cons p rest ih =>
    have hp := h p (List.mem_cons_self p rest)
    have hrest := ih (fun q hq => h q (List.mem_cons_of_mem p hq))
    simp only [lastKnotLE, hrest]
    rw [if_neg (by omega)]

theorem getD_map_range_start {α : Type} (s : ℕ) (f : ℕ → α) (d : α) {n i : ℕ}
    (hi : i < n) : ((List.range' s n).map f).getD i d = f (s + i) := by
  rw [List.getD_eq_getElem _ _ (by simpa using hi), List.getElem_map,
    List.getElem_range']
  congr 1
  omega

theorem pairs_pairwise_ge {ks : List (ℕ × ℚ)}
    (hpw : List.Pairwise (fun a b => a.1 < b.1) ks) {k0 : ℕ × ℚ}
    (hk0 : k0 ∈ ks) (s n : ℕ) (hs : k0.1 ≤ s) :
    List.Pairwise (fun a b => xleB a.1 b.1 = true)
      ((List.range' s n).map (fun m => (prevM ks m, prevR ks m))) := by
  rw [List.pairwise_map]
  apply List.Pairwise.imp_of_mem ?_ (List.pairwise_lt_range' s n)
  intro m m' hm hm' hlt
  have hm1 : s ≤ m := (List.mem_range'_1.mp hm).1
  rcases lastKnotLE_max hpw hk0 (by omega : k0.1 ≤ m) with ⟨q, hq, _⟩
  rcases lastKnotLE_month_mono hpw (le_of_lt hlt) hq with ⟨q', hq', hle⟩
  show xleB (prevM ks m) (prevM ks m') = true
  unfold prevM
  rw [hq, hq']
  show decide ((q.1 : ℚ) / 12 ≤ (q'.1 : ℚ) / 12) = true
  rw [decide_eq_true_eq]
  exact div12_le_iff.mpr hle

theorem orderedInsert_none_pairs (S nones : List (Option ℚ × Option ℚ))
    (hS : ∀ p ∈ S, p.1 ≠ none) (hnn : ∀ p ∈ nones, p = ((none : Option ℚ), (none : Option ℚ))) :
    List.orderedInsert (fun a b => xleB a.1 b.1 = true) (none, none) (S ++ nones) =
      S ++ (none, none) :: nones := by
  induction S with
  | nil =>
    cases nones with
    | nil => rfl
    | cons x t =>
      have hx := hnn x (List.mem_cons_self x t)
      subst hx
      simp only [List.nil_append, List.orderedInsert]
      rw [if_pos (by rfl)]
  | cons s S' ih =>
    have hs := hS s (List.mem_cons_self s S')
    have hS' : ∀ p ∈ S', p.1 ≠ none := fun p hp => hS p (List.mem_cons_of_mem s hp)
    simp only [List.cons_append, List.orderedInsert]
    rw [if_neg ?hne]
    case hne =>
      cases hsx : s.1 with
      | none => exact absurd hsx hs
      | some v =>
        show ¬(xleB none (some v) = true)
        simp [xleB]
    exact congrArg (List.cons s) (ih hS')

theorem insertionSort_none_pairs (S : List (Option ℚ × Option ℚ))
    (hS : List.Pairwise (fun a b => xleB a.1 b.1 = true) S)
    (hSome : ∀ p ∈ S, p.1 ≠ none) :
    ∀ n, List.insertionSort (fun a b => xleB a.1 b.1 = true)
        (List.replicate n ((none : Option ℚ), (none : Option ℚ)) ++ S) =
      S ++ List.replicate n ((none : Option ℚ), (none : Option ℚ)) := by
  intro n
  induction n with
  | zero =>
    rw [List.replicate_zero, List.nil_append, List.append_nil]
    exact List.Sorted.insertionSort_eq hS
  | succ c ih =>
    rw [List.replicate_succ, List.cons_append]
    show List.orderedInsert _ (none, none) (List.insertionSort _ _) = _
    rw [ih]
    rw [orderedInsert_none_pairs S _ hSome
      (fun p hp => List.eq_of_mem_replicate hp)]

theorem buildCurveFromTable_knots_below {ks : List (ℕ × ℚ)}
    (hpw : List.Pairwise (fun a b => a.1 < b.1) ks) {F : ℕ} {rF : ℚ} {H : ℕ}
    (hFk : (F, rF) ∈ ks) (hmin : ∀ p ∈ ks, F ≤ p.1) (hF2 : 2 ≤ F) (hFH : F ≤ H) :
    buildCurveFromTable (tblOfKnots ks) H = Except.error CurveErr.belowRange := by
  have hpos : ∀ p ∈ ks, 1 ≤ p.1 := fun p hp => by have := hmin p hp; omega
  have hH : 2 ≤ H := by omega
  have hmg := df_final_merged_knots hpw hpos H
  have hcolM : ((List.range' 1 H).map (mrowSpec ks)).map (fun r => r.maturity) =
      (List.range' 1 H).map (prevM ks) := by
    rw [List.map_map]
    apply List.map_congr_left
    intro m _
    exact mrowSpec_maturity ks m
  have hcolR : ((List.range' 1 H).map (mrowSpec ks)).map (fun r => r.rate) =
      (List.range' 1 H).map (prevR ks) := by
    rw [List.map_map]
    apply List.map_congr_left
    intro m _
    exact mrowSpec_rate ks m
  have hcolY : ((List.range' 1 H).map (mrowSpec ks)).map (fun r => r.year) =
      (List.range' 1 H).map (fun (m : ℕ) => (m : ℚ) / 12) := by
    rw [List.map_map]
    apply List.map_congr_left
    intro m _
    exact mrowSpec_year ks m
  have hsplit : List.range' 1 H = List.range' 1 (F - 1) ++ List.range' F (H - F + 1) := by
    have h := List.range'_append 1 (F - 1) (H - F + 1) 1
    rw [show 1 + 1 * (F - 1) = F by omega, show (H - F + 1) + (F - 1) = H by omega] at h
    exact h.symm
  have hnoneM : ∀ m ∈ List.range' 1 (F - 1), prevM ks m = none := by
    intro m hm
    rcases List.mem_range'_1.mp hm with ⟨_, hm2⟩
    unfold prevM
    rw [lastKnotLE_none_of_lt (fun p hp => by have := hmin p hp; omega)]
    rfl
  have hnoneR : ∀ m ∈ List.range' 1 (F - 1), prevR ks m = none := by
    intro m hm
    rcases List.mem_range'_1.mp hm with ⟨_, hm2⟩
    unfold prevR
    rw [lastKnotLE_none_of_lt (fun p hp => by have := hmin p hp; omega)]
    rfl
  have hlenF : (List.range' 1 (F - 1)).length = F - 1 := by simp [List.length_range']
  have hxs : (List.range' 1 H).map (prevM ks) =
      List.replicate (F - 1) none ++ (List.range' F (H - F + 1)).map (prevM ks) := by
    rw [hsplit, List.map_append]
    congr 1
    have h := List.map_eq_replicate_iff.mpr hnoneM
    rwa [hlenF] at h
  have hys : (List.range' 1 H).map (prevR ks) =
      List.replicate (F - 1) none ++ (List.range' F (H - F + 1)).map (prevR ks) := by
    rw [hsplit, List.map_append]
    congr 1
    have h := List.map_eq_replicate_iff.mpr hnoneR
    rwa [hlenF] at h
  have hSsome : ∀ p ∈ (List.range' F (H - F + 1)).map
      (fun m => (prevM ks m, prevR ks m)), p.1 ≠ none := by
    intro p hp
    rw [List.mem_map] at hp
    rcases hp with ⟨m, hm, rfl⟩
    have hmF : F ≤ m := (List.mem_range'_1.mp hm).1
    rcases lastKnotLE_max hpw hFk (by omega : (F, rF).1 ≤ m) with ⟨q, hq, _⟩
    show prevM ks m ≠ none
    unfold prevM
    rw [hq]
    simp
  have hint : interp1d ((List.range' 1 H).map (prevM ks)) ((List.range' 1 H).map (prevR ks)) =
      Except.ok (Interp1d.mk
        (((List.range' F (H - F + 1)).map (prevM ks)) ++ List.replicate (F - 1) none)
        (((List.range' F (H - F + 1)).map (prevR ks)) ++ List.replicate (F - 1) none)) := by
    unfold interp1d
    rw [if_neg (by simp [List.length_range'])]
    rw [if_neg (by simp only [List.length_map, List.length_range']; omega)]
    unfold sortPairs
    rw [hxs, hys]
    rw [List.zip_append (by simp)]
    rw [List.zip_replicate, List.zip_map']
    rw [show (F - 1) ⊓ (F - 1) = F - 1 by omega]
    rw [insertionSort_none_pairs _ (pairs_pairwise_ge hpw hFk F (H - F + 1) (le_refl _)) hSsome]
    simp only [List.map_append, List.map_replicate, List.map_map]
    rfl
  unfold buildCurveFromTable
  rw [hmg, hcolM, hcolR, hcolY, hint]
  simp only []
  unfold interpCall
  rw [if_pos ?hbelow]
  case hbelow =>
    rw [List.any_eq_true]
    refine ⟨((1 : ℕ) : ℚ) / 12,
      List.mem_map.mpr ⟨1, List.mem_range'_1.mpr ⟨le_refl 1, by omega⟩, rfl⟩, ?_⟩
    unfold belowBounds
    have hhead : (((List.range' F (H - F + 1)).map (prevM ks)) ++
        List.replicate (F - 1) none).getD 0 none = some ((F : ℚ) / 12) := by
      rw [List.getD_append _ _ _ 0 (by simp only [List.length_map, List.length_range']; omega)]
      rw [getD_map_range_start F (prevM ks) none (by omega : 0 < H - F + 1)]
      unfold prevM
      rw [show F + 0 = F by omega]
      rw [lastKnotLE_eq_of_knot hpw (k := (F, rF)) hFk]
      rfl
    show ltN (some (((1 : ℕ) : ℚ) / 12)) _ = true
    rw [hhead]
    show decide (((1 : ℕ) : ℚ) / 12 < (F : ℚ) / 12) = true
    rw [decide_eq_true_eq]
    exact div12_lt_iff.mpr (by omega)

/-! ### Claim C3 -/

/-- C3 counterexample: with quoted tenors of one and two months and a
36-month-free horizon of 3 months, the months past the two-month maturity
are out of the interpolation range; the claim says the builder returns the
nearest known rate (flat extrapolation), but the code raises scipy's
out-of-range ValueError and no curve is produced. -/
theorem C3_counterexample :
    buildCurve [(['1', ' ', 'M', 'o'], some 2), (['2', ' ', 'M', 'o'], some 3)] 3 =
      Except.error CurveErr.aboveRange := by
  have hM1 := Maturities_Mo_one '1' (by decide)
  have hM2 := Maturities_Mo_one '2' (by decide)
  have hd1 : digitVal '1' = 1 := rfl
  have hd2 : digitVal '2' = 2 := rfl
  rw [hd1] at hM1
  rw [hd2] at hM2
  have hpt : parseTable [(['1', ' ', 'M', 'o'], some 2), (['2', ' ', 'M', 'o'], some 3)] =
      Except.ok (tblOfKnots [(1, 2), (2, 3)]) := by
    norm_num [parseTable, List.mapM, List.mapM.loop, hM1, hM2, tblOfKnots,
      bind, Except.bind, pure, Except.pure]
  show buildCurve _ 3 = _
  simp only [buildCurve, hpt]
  refine @buildCurveFromTable_knots_above [(1, 2), (2, 3)] ?_ 2 3 2 3 ?_ ?_ ?_ ?_ ?_
  · decide
  · exact List.mem_cons_self _ _
  · exact List.mem_cons_of_mem _ (List.mem_cons_self _ _)
  · intro p hp
    rcases List.mem_cons.mp hp with rfl | hp'
    · exact ⟨le_refl 1, by omega⟩
    · rcases List.mem_cons.mp hp' with rfl | hp''
      · exact ⟨by omega, le_refl 2⟩
      · simp at hp''
  · omega
  · omega

/-- C3 amended: the builder performs true piecewise-linear interpolation only
inside the known maturity range, and FAILS on queries outside it instead of
flat-extrapolating.  Precisely, for a curve table whose knots sit at months
(the merge matches maturity n/12 at month n): (i) when the knots are sorted,
start at month 1, and reach month H, the builder succeeds and every month's
rate is the piecewise-linear interpolant of the knots (exact at knots, the
bracketing chord in between); (ii) when the last knot L lies strictly below
the horizon, the builder raises scipy's above-range ValueError; (iii) when
the first knot F lies past month 1, the rows before F merge as NaN, the sort
moves them past the data, and the builder raises the below-range ValueError. -/
theorem C3_amended_interp_behavior :
    (∀ (ks : List (ℕ × ℚ)) (H : ℕ) (r1 rH : ℚ),
      List.Pairwise (fun a b => a.1 < b.1) ks → (1, r1) ∈ ks → (H, rH) ∈ ks →
      (∀ p ∈ ks, 1 ≤ p.1 ∧ p.1 ≤ H) → 2 ≤ H →
      buildCurveFromTable (tblOfKnots ks) H =
        Except.ok ((List.range' 1 H).map (fun m =>
          MonthRow.mk m ((m : ℚ) / 12) (specInterp ks m)))) ∧
    (∀ (ks : List (ℕ × ℚ)) (L H : ℕ) (r1 rL : ℚ),
      List.Pairwise (fun a b => a.1 < b.1) ks → (1, r1) ∈ ks → (L, rL) ∈ ks →
      (∀ p ∈ ks, 1 ≤ p.1 ∧ p.1 ≤ L) → L < H → 2 ≤ H →
      buildCurveFromTable (tblOfKnots ks) H = Except.error CurveErr.aboveRange) ∧
    (∀ (ks : List (ℕ × ℚ)) (F H : ℕ) (rF : ℚ),
      List.Pairwise (fun a b => a.1 < b.1) ks → (F, rF) ∈ ks →
      (∀ p ∈ ks, F ≤ p.1) → 2 ≤ F → F ≤ H →
      buildCurveFromTable (tblOfKnots ks) H = Except.error CurveErr.belowRange) :=
  ⟨fun ks H r1 rH hpw h1 hHk hbd hH =>
      @buildCurveFromTable_knots_ok ks hpw r1 rH H h1 hHk hbd hH,
    fun ks L H r1 rL hpw h1 hLk hbd hLH hH =>
      @buildCurveFromTable_knots_above ks hpw r1 rL L H h1 hLk hbd hLH hH,
    fun ks F H rF hpw hFk hmin hF2 hFH =>
      @buildCurveFromTable_knots_below ks hpw F rF H hFk hmin hF2 hFH⟩

/-- Witness for the amended C3: knots at months 1 and 3 over a three-month
horizon give the interpolated rates 2, 3 (the chord midpoint), 4; a curve
ending at month 2 raises the above-range error; a curve starting at month 2
raises the below-range error. -/
theorem C3_amended_witness :
    buildCurveFromTable (tblOfKnots [(1, 2), (3, 4)]) 3 =
      Except.ok [MonthRow.mk 1 (1 / 12) (some 2), MonthRow.mk 2 (1 / 6) (some 3),
        MonthRow.mk 3 (1 / 4) (some 4)] ∧
    buildCurveFromTable (tblOfKnots [(1, 2), (2, 3)]) 3 =
      Except.error CurveErr.aboveRange ∧
    buildCurveFromTable (tblOfKnots [(2, 3), (3, 4)]) 3 =
      Except.error CurveErr.belowRange := by
  obtain ⟨hA, hB, hC⟩ := C3_amended_interp_behavior
  refine ⟨?_, ?_, ?_⟩
  · have h := hA [(1, 2), (3, 4)] 3 2 4 (by decide)
      (List.mem_cons_self _ _)
      (List.mem_cons_of_mem _ (List.mem_cons_self _ _))
      (by
        intro p hp
        rcases List.mem_cons.mp hp with rfl | hp'
        · exact ⟨le_refl 1, by omega⟩
        · rcases List.mem_cons.mp hp' with rfl | hp''
          · exact ⟨by omega, le_refl 3⟩
          · simp at hp'')
      (by omega)
    rw [h]
    rw [show List.range' 1 3 = [1, 2, 3] from rfl]
    norm_num [specInterp, lastKnotLE, firstKnotGE]
  · exact hB [(1, 2), (2, 3)] 2 3 2 3 (by decide)
      (List.mem_cons_self _ _)
      (List.mem_cons_of_mem _ (List.mem_cons_self _ _))
      (by
        intro p hp
        rcases List.mem_cons.mp hp with rfl | hp'
        · exact ⟨le_refl 1, by omega⟩
        · rcases List.mem_cons.mp hp' with rfl | hp''
          · exact ⟨by omega, le_refl 2⟩
          · simp at hp'')
      (by omega) (by omega)
  · exact hC [(2, 3), (3, 4)] 2 3 3 (by decide)
      (List.mem_cons_self _ _)
      (by
        intro p hp
        rcases List.mem_cons.mp hp with rfl | hp'
        · exact le_refl 2
        · rcases List.mem_cons.mp hp' with rfl | hp''
          · omega
          · simp at hp'')
      (by omega) (by omega)

end PVCalc
